import Mathlib

/-!
Verification development for the PostalServiceRouting delivery simulator.

The Python sources are shallowly embedded: pure functions become Lean
functions, methods that mutate objects become functions from the old value to
the new value, code that can raise becomes `Except String`-valued, and the
source's floats become exact rationals (`ℚ`).  Location objects are identified
by the index they get in the Location registry; the symmetric distance tables
built by `Location.add_distance` are passed around as neighbor association
lists, mirroring the per-object Python dicts (insertion-ordered, unique keys).
-/

set_option maxHeartbeats 1000000
set_option maxRecDepth 10000

/-- Special delivery code carried by a package (`package.py`).  The source keeps
these as strings of the exact shapes `TRUCK[i,...]`, `DELAY[HH:MM:SS]`,
`BATCH[i,...]` and `INVALID` (the only shapes produced by
`Interface.__special_notes_to_code`), and all consumers dispatch on them with
substring tests such as `"TRUCK[" in code`, which on these well-formed strings
is exactly a test of the leading tag.  We model a code as the parsed tagged
variant: truck ids, a delay time in seconds since midnight, batched package
ids, or the INVALID marker. -/
inductive SCode where
  | truckC (ids : List ℕ)
  | delayC (t : ℕ)
  | batchC (ids : List ℕ)
  | invalidC
deriving DecidableEq, Repr

/-- Status of a package.  `package.py` stores a string; the values produced by
the program are "NEW", "IN HUB", "EN ROUTE - TRUCK n", "DELAYED UNTIL t",
"DELIVERED at t" and "ATTEMPTED".  The timestamps the source formats into the
string are carried here as minutes since midnight. -/
inductive PStatus where
  | newPkg
  | inHub
  | enRoute (truckId : ℕ)
  | delayedUntil (t : ℕ)
  | delivered (t : ℕ)
  | attempted
deriving DecidableEq, Repr

/-- Model of a `Package` (package.py).  `destination` is the Location identity
the constructor resolves via `Location.get_location_by_address`; `deadline` is
in seconds since midnight (the source parses "%I:%M:%S %p", and represents
"EOD" as 11:59:59 PM = 86399). -/
structure Package where
  package_id : ℕ
  destination : ℕ
  deadline : ℕ
  weight : ℚ
  special_code : List SCode
  status : PStatus
deriving DecidableEq, Repr

/-- Test for the INVALID tag; on well-formed code strings this is the source's
`"INVALID" in code` substring test. -/
def SCode.isInvalid : SCode → Bool
  | SCode.invalidC => true
  | _ => false

/-- Test for a `TRUCK[...]` code (`"TRUCK[" in code`). -/
def SCode.isTruck : SCode → Bool
  | SCode.truckC _ => true
  | _ => false

/-- Test for a `DELAY[...]` code (`"DELAY[" in code`). -/
def SCode.isDelay : SCode → Bool
  | SCode.delayC _ => true
  | _ => false

/-- Test for a `BATCH[...]` code (`"BATCH[" in code`). -/
def SCode.isBatch : SCode → Bool
  | SCode.batchC _ => true
  | _ => false

/-- Model of `any("INVALID" in code for code in self._special_code)`. -/
def Package.hasInvalid (p : Package) : Bool :=
  p.special_code.any SCode.isInvalid

/-- Model of `Package.update_status` (package.py lines 63-68): it raises a
descriptive `ValueError` when some special code carries INVALID and the new
status is not "IN HUB" (leaving the stored status untouched), and otherwise
stores the new status. -/
def Package.update_status (p : Package) (new_status : PStatus) : Except String Package :=
  if p.hasInvalid ∧ new_status ≠ PStatus.inHub then
    Except.error "ValueError: package has invalid information and cannot be updated"
  else
    Except.ok { p with status := new_status }

theorem hasInvalid_iff (p : Package) :
    p.hasInvalid = true ↔ SCode.invalidC ∈ p.special_code := by
  unfold Package.hasInvalid
  rw [List.any_eq_true]
  constructor
  · rintro ⟨c, hc, hci⟩
    cases c with
    | invalidC => exact hc
    | truckC ids => simp [SCode.isInvalid] at hci
    | delayC t => simp [SCode.isInvalid] at hci
    | batchC ids => simp [SCode.isInvalid] at hci
  · intro h
    exact ⟨SCode.invalidC, h, rfl⟩

/-- C7: `update_status(new_status)` raises a descriptive ValueError if and only
if the package's special codes include INVALID and the new status is not
"IN HUB"; in the raising case no updated package is produced (the imperative
source raises before the assignment, so the stored status is unchanged), in
every other case the stored status becomes exactly the requested one, and
consequently a package carrying INVALID can never be moved to any status other
than "IN HUB". -/
theorem C7_update_status (p : Package) (s : PStatus) :
    ((∃ e, p.update_status s = Except.error e) ↔
      (SCode.invalidC ∈ p.special_code ∧ s ≠ PStatus.inHub))
    ∧ (¬ (SCode.invalidC ∈ p.special_code ∧ s ≠ PStatus.inHub) →
        p.update_status s = Except.ok { p with status := s })
    ∧ (∀ q, p.update_status s = Except.ok q →
        SCode.invalidC ∈ p.special_code → s = PStatus.inHub) := by
  unfold Package.update_status
  by_cases h : p.hasInvalid ∧ s ≠ PStatus.inHub
  · rw [if_pos h]
    refine ⟨⟨fun _ => ⟨(hasInvalid_iff p).mp h.1, h.2⟩, fun _ => ⟨_, rfl⟩⟩, ?_, ?_⟩
    · intro hn
      exact absurd ⟨(hasInvalid_iff p).mp h.1, h.2⟩ hn
    · intro q hq
      exact absurd hq (by simp)
  · rw [if_neg h]
    refine ⟨⟨fun he => ?_, fun hc => ?_⟩, fun _ => rfl, fun q _ hinv => ?_⟩
    · obtain ⟨e, he⟩ := he
      exact absurd he (by simp)
    · exact absurd ⟨(hasInvalid_iff p).mpr hc.1, hc.2⟩ h
    · by_contra hs
      exact h ⟨(hasInvalid_iff p).mpr hinv, hs⟩

/-- Concrete package carrying INVALID, used to instantiate theorems. -/
def pkgInvalidEx : Package :=
  { package_id := 9, destination := 3, deadline := 86399, weight := 2,
    special_code := [SCode.invalidC], status := PStatus.inHub }

/-- Concrete package without INVALID, used to instantiate theorems. -/
def pkgPlainEx : Package :=
  { package_id := 1, destination := 4, deadline := 36000, weight := 3,
    special_code := [], status := PStatus.inHub }

theorem C7_update_status_witness :
    (∃ e, pkgInvalidEx.update_status (PStatus.enRoute 1) = Except.error e)
    ∧ pkgPlainEx.update_status PStatus.attempted =
        Except.ok { pkgPlainEx with status := PStatus.attempted } := by
  refine ⟨((C7_update_status pkgInvalidEx (PStatus.enRoute 1)).1).mpr ⟨by decide, by decide⟩, ?_⟩
  exact (C7_update_status pkgPlainEx PStatus.attempted).2.1 (by decide)

/-- Model of a `Truck` (truck.py).  `packages` holds the loaded packages as
values; `last_location` and the `route` queue are Location identities; the
source's float distances and speeds are exact rationals.  `tid` is the
source's `_id`. -/
structure Truck where
  tid : ℕ
  capacity : ℕ
  avg_speed : ℚ
  driver : Option ℕ
  packages : List Package
  mileage : ℚ
  last_location : ℕ
  route : List ℕ
  distance_to_next : ℚ
deriving DecidableEq, Repr

/-- Model of `Truck.load` (truck.py lines 30-34): when the truck is at or above
capacity it silently returns; otherwise it appends the package and then calls
`update_status(f"EN ROUTE - TRUCK {id}")`, which raises if the package is
INVALID (the append has already happened at that point).  The second component
reports the outcome of the status update: the updated package, the original
package for the full-truck no-op, or the raised error. -/
def Truck.load (t : Truck) (p : Package) : Truck × Except String Package :=
  if t.packages.length ≥ t.capacity then
    (t, Except.ok p)
  else
    match p.update_status (PStatus.enRoute t.tid) with
    | Except.ok q => ({ t with packages := t.packages ++ [q] }, Except.ok q)
    | Except.error e => ({ t with packages := t.packages ++ [p] }, Except.error e)

/-- C10: when the truck's loaded-package count is at or above its capacity,
`load` is a silent no-op — no error, the package list unchanged, the package's
status untouched; when the truck is below capacity (and the status update does
not raise for an INVALID package) the package is appended and its status set to
EN ROUTE for this truck; and the package list changes only when the truck was
below capacity. -/
theorem C10_load (t : Truck) (p : Package) :
    (t.packages.length ≥ t.capacity → t.load p = (t, Except.ok p))
    ∧ (t.packages.length < t.capacity → SCode.invalidC ∉ p.special_code →
        t.load p =
          ({ t with packages := t.packages ++ [{ p with status := PStatus.enRoute t.tid }] },
            Except.ok { p with status := PStatus.enRoute t.tid }))
    ∧ (∀ t2 r, t.load p = (t2, r) → t2.packages ≠ t.packages →
        t.packages.length < t.capacity) := by
  refine ⟨fun h => ?_, fun h hinv => ?_, fun t2 r hl hne => ?_⟩
  · unfold Truck.load
    rw [if_pos h]
  · unfold Truck.load
    rw [if_neg (by omega)]
    have hok : p.update_status (PStatus.enRoute t.tid) =
        Except.ok { p with status := PStatus.enRoute t.tid } := by
      apply (C7_update_status p (PStatus.enRoute t.tid)).2.1
      intro hc
      exact hinv hc.1
    rw [hok]
  · by_contra hge
    have hge2 : t.packages.length ≥ t.capacity := by omega
    unfold Truck.load at hl
    rw [if_pos hge2] at hl
    have h1 : t = t2 := congrArg Prod.fst hl
    exact hne (by rw [← h1])

/-- Concrete truck at capacity 0 (full) for witnessing. -/
def truckFullEx : Truck :=
  { tid := 1, capacity := 0, avg_speed := 18, driver := none, packages := [],
    mileage := 0, last_location := 0, route := [], distance_to_next := 0 }

/-- Concrete empty truck with spare capacity for witnessing. -/
def truckEmptyEx : Truck :=
  { tid := 2, capacity := 16, avg_speed := 18, driver := none, packages := [],
    mileage := 0, last_location := 0, route := [], distance_to_next := 0 }

theorem C10_load_witness :
    truckFullEx.load pkgPlainEx = (truckFullEx, Except.ok pkgPlainEx)
    ∧ truckEmptyEx.load pkgPlainEx =
        ({ truckEmptyEx with packages := [{ pkgPlainEx with status := PStatus.enRoute 2 }] },
          Except.ok { pkgPlainEx with status := PStatus.enRoute 2 }) := by
  constructor
  · exact (C10_load truckFullEx pkgPlainEx).1 (by decide)
  · exact (C10_load truckEmptyEx pkgPlainEx).2.1 (by decide) (by decide)

/-- Model of `Truck.drive` (truck.py lines 36-60).  `g a b` is
`a.distance_from(b)` (a `dict.get`, hence `Option`); the source would hit a
`TypeError` if the arithmetic met a missing distance, modelled as an error.
The arrival branch reproduces the source exactly: `travel_distance` is first
overwritten with `distance_to_next`, and only then is
`extra_distance = travel_distance - distance_to_next` computed, so
`extra_distance` is always zero. -/
def Truck.drive (g : ℕ → ℕ → Option ℚ) (t : Truck) : Except String (Truck × Bool) :=
  match t.route with
  | [] => Except.ok (t, false)
  | next :: rest =>
    let travel_distance := t.avg_speed / 60
    if t.distance_to_next < travel_distance then
      let travel_distance2 := t.distance_to_next
      let extra_distance := travel_distance2 - t.distance_to_next
      match rest with
      | [] =>
        Except.ok ({ t with last_location := next, route := [], distance_to_next := 0 }, true)
      | next2 :: rest2 =>
        match g next next2 with
        | none => Except.error "TypeError: unlinked locations"
        | some d =>
          let t2 : Truck := { t with last_location := next, route := next2 :: rest2, distance_to_next := d - extra_distance }
          Except.ok (t2, true)
    else
      let t3 : Truck := { t with mileage := t.mileage + travel_distance, distance_to_next := t.distance_to_next - travel_distance }
      Except.ok (t3, false)

/-- C6 (divergence witness): in the arrival case with a non-empty remaining
queue, `drive` sets the new distance-to-next to the full distance from the
reached stop to the new queue head; the leftover travel allowance of the
minute (`avg_speed/60 - old distance_to_next`) is never subtracted, because
the source overwrites `travel_distance` before computing `extra_distance`.
The claimed value `d - (avg_speed/60 - distance_to_next)` is produced only
when that leftover is zero. -/
theorem C6_drive_no_leftover (g : ℕ → ℕ → Option ℚ) (t : Truck) (next next2 : ℕ)
    (rest2 : List ℕ) (d : ℚ) (hroute : t.route = next :: next2 :: rest2)
    (hlt : t.distance_to_next < t.avg_speed / 60) (hg : g next next2 = some d) :
    t.drive g =
      Except.ok ({ t with last_location := next, route := next2 :: rest2, distance_to_next := d }, true) := by
  unfold Truck.drive
  rw [hroute]
  simp only [if_pos hlt, hg, sub_self, sub_zero]

/-- Concrete distance table: 0-1 at 5 miles, 1-2 at 7 miles, self-distances 0
(as loaded from the csv diagonal by `Interface.list_to_location_list`). -/
def gEx : ℕ → ℕ → Option ℚ :=
  fun a b =>
    if a = b then some 0
    else if (a = 0 ∧ b = 1) ∨ (a = 1 ∧ b = 0) then some 5
    else if (a = 1 ∧ b = 2) ∨ (a = 2 ∧ b = 1) then some 7
    else none

/-- Concrete truck one tenth of a mile from stop 1, with stop 2 queued after;
at 18 mph it has 3/10 mile of travel allowance this minute. -/
def truckDriveEx : Truck :=
  { tid := 1, capacity := 16, avg_speed := 18, driver := none, packages := [],
    mileage := 0, last_location := 0, route := [1, 2], distance_to_next := 1/10 }

theorem C6_drive_witness :
    truckDriveEx.drive gEx =
      Except.ok ({ truckDriveEx with last_location := 1, route := [2], distance_to_next := 7 }, true)
    ∧ (7 : ℚ) ≠ 7 - (18 / 60 - 1/10) := by
  constructor
  · exact C6_drive_no_leftover gEx truckDriveEx 1 2 [] 7 rfl (by norm_num [truckDriveEx]) (by decide)
  · norm_num

/-- Model of `list.remove(x)`: drop the first occurrence.  In the source the
elements are compared by object identity; package values in one truck are
pairwise distinct (unique ids), so value equality coincides with it here. -/
def removeFirstPkg : List Package → Package → List Package
  | [], _ => []
  | q :: rest, p => if q = p then rest else q :: removeFirstPkg rest p

theorem removeFirstPkg_length_le (l : List Package) (p : Package) :
    (removeFirstPkg l p).length ≤ l.length := by
  induction l with
  | nil => simp [removeFirstPkg]
  | cons q rest ih =>
    unfold removeFirstPkg
    by_cases h : q = p
    · rw [if_pos h]; simp
    · rw [if_neg h]; simpa using Nat.succ_le_succ ih

/-- Iteration core of `Truck.attempt_delivery` (truck.py lines 62-76).  The
source runs `for package in self._packages` while calling
`self._packages.remove(package)` inside the loop; Python's list iterator keeps
advancing its index over the shrinking list, so the element that slides into a
removed element's slot is never examined.  `i` is the iterator index.  Returns
(remaining packages, delivered packages, delivered-anything flag). -/
def attemptDeliveryGo (loc : ℕ) (tmin : ℕ) : ℕ → List Package → ℕ →
    List Package → Bool → Except String (List Package × List Package × Bool)
  | 0, pkgs, _, delivered, flag => Except.ok (pkgs, delivered, flag)
  | fuel + 1, pkgs, i, delivered, flag =>
    if h : i < pkgs.length then
      let p := pkgs.get ⟨i, h⟩
      if p.destination = loc then
        match p.update_status (PStatus.delivered tmin) with
        | Except.error e => Except.error e
        | Except.ok q =>
          attemptDeliveryGo loc tmin fuel (removeFirstPkg pkgs p) (i + 1) (delivered ++ [q]) true
      else
        attemptDeliveryGo loc tmin fuel pkgs (i + 1) delivered flag
    else
      Except.ok (pkgs, delivered, flag)

/-- Model of `Truck.attempt_delivery`: deliver loaded packages destined for
`loc`, stamping them DELIVERED at minute `tmin`; returns the updated truck, the
delivered packages, and whether anything was delivered.  The structural fuel
`t.packages.length` dominates the iterator loop, which advances `i` on every
step and stops once `i` reaches the (shrinking) list length. -/
def Truck.attempt_delivery (t : Truck) (loc : ℕ) (tmin : ℕ) :
    Except String (Truck × List Package × Bool) :=
  match attemptDeliveryGo loc tmin t.packages.length t.packages 0 [] false with
  | Except.error e => Except.error e
  | Except.ok (remaining, delivered, flag) =>
    Except.ok ({ t with packages := remaining }, delivered, flag)

/-- Two distinct packages with the same destination, loaded adjacently. -/
def pkgDupA : Package :=
  { package_id := 1, destination := 5, deadline := 86399, weight := 1,
    special_code := [], status := PStatus.enRoute 1 }

/-- Second package to the same destination as `pkgDupA`. -/
def pkgDupB : Package :=
  { package_id := 2, destination := 5, deadline := 86399, weight := 1,
    special_code := [], status := PStatus.enRoute 1 }

/-- Truck at location 5 carrying both packages destined for 5. -/
def truckDupEx : Truck :=
  { tid := 1, capacity := 16, avg_speed := 18, driver := none,
    packages := [pkgDupA, pkgDupB], mileage := 0, last_location := 5,
    route := [], distance_to_next := 0 }

/-- C5 (divergence witness): with two adjacently loaded packages both destined
for the visited location, `attempt_delivery` delivers only the first — the
in-loop `remove` shifts the second package into the consumed slot and the
iterator skips it — returning True while the second package stays aboard with
its status untouched. -/
theorem C5_attempt_delivery_skips_adjacent :
    truckDupEx.attempt_delivery 5 600 =
      Except.ok ({ truckDupEx with packages := [pkgDupB] },
        [{ pkgDupA with status := PStatus.delivered 600 }], true)
    ∧ pkgDupB.status ≠ PStatus.delivered 600 := by
  constructor
  · rfl
  · decide

/-- Model of the argument validation at the head of `Optimizer.generate_routes`
(optimizer.py lines 65-72): the accepted ranges are 1..50 routes, 100..100000
generations, and 50..1000 population members. -/
def generate_routes_validation
    (num_routes total_generations population_size : ℤ) : Except String Unit :=
  if num_routes < 1 ∨ num_routes > 50 then
    Except.error "num_routes must be 1 to 50"
  else if total_generations < 100 ∨ total_generations > 100000 then
    Except.error "total_generations must be at least 50 and at most 100000"
  else if population_size < 50 ∨ population_size > 1000 then
    Except.error "population_size must be at least 50 and less than 1000"
  else
    Except.ok ()

/-- C8 (counterexample): the configuration num_routes = 1, generations = 1,
population_size = 1 has every parameter ≥ 1, yet `generate_routes` rejects it
with a validation error — refuting the claim that no call with all three
parameters ≥ 1 raises a validation error. -/
theorem C8_counterexample :
    (1 : ℤ) ≥ 1
    ∧ generate_routes_validation 1 1 1 =
        Except.error "total_generations must be at least 50 and at most 100000" := by
  constructor
  · decide
  · rfl

/-- C8 (amended): `generate_routes` accepts a configuration exactly when
1 ≤ num_routes ≤ 50, 100 ≤ generations ≤ 100000 and
50 ≤ population_size ≤ 1000, and raises a descriptive error for precisely the
configurations outside those ranges. -/
theorem C8_validation_ranges (a b c : ℤ) :
    (generate_routes_validation a b c = Except.ok () ↔
      (1 ≤ a ∧ a ≤ 50 ∧ 100 ≤ b ∧ b ≤ 100000 ∧ 50 ≤ c ∧ c ≤ 1000))
    ∧ ((∃ e, generate_routes_validation a b c = Except.error e) ↔
      ¬ (1 ≤ a ∧ a ≤ 50 ∧ 100 ≤ b ∧ b ≤ 100000 ∧ 50 ≤ c ∧ c ≤ 1000)) := by
  unfold generate_routes_validation
  by_cases h1 : a < 1 ∨ a > 50
  · rw [if_pos h1]
    constructor
    · constructor
      · intro h; exact absurd h (by simp)
      · intro h; omega
    · constructor
      · intro _; omega
      · intro _; exact ⟨_, rfl⟩
  · rw [if_neg h1]
    by_cases h2 : b < 100 ∨ b > 100000
    · rw [if_pos h2]
      constructor
      · constructor
        · intro h; exact absurd h (by simp)
        · intro h; omega
      · constructor
        · intro _; omega
        · intro _; exact ⟨_, rfl⟩
    · rw [if_neg h2]
      by_cases h3 : c < 50 ∨ c > 1000
      · rw [if_pos h3]
        constructor
        · constructor
          · intro h; exact absurd h (by simp)
          · intro h; omega
        · constructor
          · intro _; omega
          · intro _; exact ⟨_, rfl⟩
      · rw [if_neg h3]
        constructor
        · constructor
          · intro _; omega
          · intro _; rfl
        · constructor
          · rintro ⟨e, he⟩; exact absurd he (by simp)
          · intro h; omega

/-- Python's `list.insert(i, v)`: insert before position `i`, clamping to the
end when `i` exceeds the length. -/
def insIdx {α : Type} : List α → ℕ → α → List α
  | l, 0, v => v :: l
  | [], _ + 1, v => [v]
  | x :: xs, n + 1, v => x :: insIdx xs n v

/-- Model of `random.randint(lo, hi)`: Python raises a ValueError when the
range is empty, and otherwise returns a value in `[lo, hi]` — here determined
by the oracle value `c` (every in-range result is realizable as some `c`). -/
def randintE (lo hi : ℤ) (c : ℕ) : Except String ℤ :=
  if hi < lo then Except.error "ValueError: empty randint range"
  else Except.ok (lo + (c : ℤ) % (hi - lo + 1))

/-- Oracle record for the random draws `RouteList.mutate` makes for one route,
in the order the source consumes them: `mutateDraw` feeds
`random.randint(1, num_routes)`, `exchDraw` is the outcome of the
`random.random() < 0.1` reorder-or-exchange coin, `nbrDraw` feeds
`random.randint(0, 1)` for the neighbor choice, `swapDraw` is the
`random.random() < 0.1` swap-or-give coin, `ixDraw1`/`ixDraw2` feed the two
index randints of the chosen branch, and `dirDraw` feeds the
`random.randint(0, 1)` direction coin of the reorder branch. -/
structure MutChoice where
  mutateDraw : ℕ
  exchDraw : Bool
  nbrDraw : ℕ
  swapDraw : Bool
  ixDraw1 : ℕ
  ixDraw2 : ℕ
  dirDraw : ℕ
deriving Repr

/-- Body of the `for i in range(num_routes)` loop of `RouteList.mutate`
(route_list.py lines 28-83) for one index `i`, acting on the whole route list
so that the in-place updates of `current_route`/`neighbor_route` (which alias
entries of the list, possibly the same entry when there is a single route) are
sequenced exactly as in the source. -/
def mutateStep (n : ℕ) (routes : List (List ℕ)) (i : ℕ) (ch : MutChoice) :
    Except String (List (List ℕ)) :=
  let cur := routes.getD i []
  match randintE 1 (n : ℤ) ch.mutateDraw with
  | Except.error e => Except.error e
  | Except.ok mdraw =>
    if mdraw ≠ 1 then Except.ok routes
    else if ch.exchDraw = true ∨ cur.length ≤ 10 then
      -- exchange with a neighboring route
      let j := (if ch.nbrDraw % 2 = 0 then ((i : ℤ) + 1) % (n : ℤ) else ((i : ℤ) - 1) % (n : ℤ)).toNat
      let nbr := routes.getD j []
      if ch.swapDraw then
        -- swap one stop between the two routes
        match randintE 1 ((cur.length : ℤ) - 2) ch.ixDraw1 with
        | Except.error e => Except.error e
        | Except.ok ixf =>
          match randintE 1 ((nbr.length : ℤ) - 2) ch.ixDraw2 with
          | Except.error e => Except.error e
          | Except.ok ixt =>
            let sw := cur.getD ixf.toNat 0
            let r1 := routes.set i (cur.set ixf.toNat (nbr.getD ixt.toNat 0))
            let r2 := r1.set j ((r1.getD j []).set ixt.toNat sw)
            Except.ok r2
      else
        -- "give": the source inserts the stop into the receiving route but
        -- never removes it from the giving route
        if cur.length ≤ 2 ∧ nbr.length ≤ 2 then Except.ok routes
        else if cur.length ≤ 2 then
          match randintE 1 ((nbr.length : ℤ) - 2) ch.ixDraw1 with
          | Except.error e => Except.error e
          | Except.ok ixg =>
            match randintE 1 ((cur.length : ℤ) - 2) ch.ixDraw2 with
            | Except.error e => Except.error e
            | Except.ok ixi =>
              Except.ok (routes.set i (insIdx cur ixi.toNat (nbr.getD ixg.toNat 0)))
        else
          match randintE 1 ((cur.length : ℤ) - 2) ch.ixDraw1 with
          | Except.error e => Except.error e
          | Except.ok ixg =>
            match randintE 1 ((nbr.length : ℤ) - 2) ch.ixDraw2 with
            | Except.error e => Except.error e
            | Except.ok ixi =>
              Except.ok (routes.set j (insIdx nbr ixi.toNat (cur.getD ixg.toNat 0)))
    else
      -- reorder within the route: adjacent swap
      match randintE 1 ((cur.length : ℤ) - 2) ch.ixDraw1 with
      | Except.error e => Except.error e
      | Except.ok ixf =>
        let ixt := if ch.dirDraw % 2 = 0
          then (if ixf < (cur.length : ℤ) - 3 then ixf + 1 else ixf - 1)
          else (if ixf > 2 then ixf - 1 else ixf + 1)
        let sw := cur.getD ixf.toNat 0
        let c1 := cur.set ixf.toNat (cur.getD ixt.toNat 0)
        let c2 := c1.set ixt.toNat sw
        Except.ok (routes.set i c2)

/-- Loop of `RouteList.mutate` over the route indices `0..n-1`; `k` counts the
remaining indices. -/
def mutateGo (n : ℕ) (ch : ℕ → MutChoice) : ℕ → ℕ → List (List ℕ) →
    Except String (List (List ℕ))
  | 0, _, routes => Except.ok routes
  | k + 1, i, routes =>
    match mutateStep n routes i (ch i) with
    | Except.error e => Except.error e
    | Except.ok r => mutateGo n ch k (i + 1) r

/-- Model of `RouteList.mutate` (route_list.py lines 16-84), with the random
draws supplied by the oracle `ch` (one record per route index).
`num_routes = len(new_list)` is captured once, as in the source. -/
def RouteList.mutate (routes : List (List ℕ)) (ch : ℕ → MutChoice) :
    Except String (List (List ℕ)) :=
  mutateGo routes.length ch routes.length 0 routes

/-- Occurrences of location `x` across all routes of a route list. -/
def routesCount (routes : List (List ℕ)) (x : ℕ) : ℕ :=
  (routes.map (fun r => r.count x)).sum

/-- Concrete parent route list over hub 0 with stops 1, 2, 3: each non-hub
stop appears in exactly one route exactly once. -/
def routesParentEx : List (List ℕ) := [[0, 1, 2, 0], [0, 3, 0]]

/-- Oracle: mutate route 0 (randint draw 1), exchange with the next neighbor
(route 1), "give" (swap coin false), giving stop index 1 into insert slot 1;
leave route 1 untouched (randint draw 2). -/
def mutChoiceEx : ℕ → MutChoice :=
  fun i =>
    if i = 0 then
      { mutateDraw := 0, exchDraw := false, nbrDraw := 0, swapDraw := false,
        ixDraw1 := 0, ixDraw2 := 0, dirDraw := 0 }
    else
      { mutateDraw := 1, exchDraw := false, nbrDraw := 0, swapDraw := false,
        ixDraw1 := 0, ixDraw2 := 0, dirDraw := 0 }

/-- C2 (divergence witness): on a parent covering each non-hub stop exactly
once, a "give" mutation copies stop 1 into the neighboring route without
removing it from its own route, so the mutated RouteList contains stop 1
twice — the coverage invariant is broken by `mutate` itself. -/
theorem C2_mutate_duplicates_stop :
    RouteList.mutate routesParentEx mutChoiceEx =
      Except.ok [[0, 1, 2, 0], [0, 1, 3, 0]]
    ∧ routesCount routesParentEx 1 = 1
    ∧ routesCount [[0, 1, 2, 0], [0, 1, 3, 0]] 1 = 2 := by
  refine ⟨?_, by decide, by decide⟩
  rfl

/-- Minutes remaining before the end-of-day deadline, as computed at
optimizer.py lines 184-188: EOD is 11:59:59 PM (86399 seconds), the remaining
seconds are floor-divided by 60.  `deadlineSec` is the package deadline in
seconds since midnight. -/
def minutesBeforeEOD (deadlineSec : ℕ) : ℕ :=
  (86399 - deadlineSec) / 60

/-- Deadline term of the pass-1 priority score,
`round(minutes_left ** 1.4)` (optimizer.py line 189), with Python's float
power modelled as the exact real power.  Python rounds half to even while
Mathlib's `round` rounds half up, but `m ^ 1.4 = m ^ (7/5)` is never a
half-integer for a natural `m` (it is irrational unless `m` is a fifth power,
and an integer then), so the two agree on every input this program produces. -/
noncomputable def deadlineTerm (deadlineSec : ℕ) : ℤ :=
  round ((minutesBeforeEOD deadlineSec : ℝ) ^ (1.4 : ℝ))

theorem round_rpow_strict {m k : ℕ} (h : m < k) :
    round ((m : ℝ) ^ (1.4 : ℝ)) < round ((k : ℝ) ^ (1.4 : ℝ)) := by
  have hp : (1 : ℝ) ≤ 1.4 := by norm_num
  have h1 : ((m : NNReal) ^ (1.4 : ℝ)) + 1 ≤ (k : NNReal) ^ (1.4 : ℝ) := by
    have ha := NNReal.add_rpow_le_rpow_add (m : NNReal) 1 hp
    rw [NNReal.one_rpow] at ha
    have hb : ((m : NNReal) + 1) ^ (1.4 : ℝ) ≤ (k : NNReal) ^ (1.4 : ℝ) := by
      apply NNReal.rpow_le_rpow _ (by norm_num)
      have hmk : (m + 1 : ℕ) ≤ k := h
      exact_mod_cast hmk
    exact le_trans ha hb
  have h2 : ((m : ℝ) ^ (1.4 : ℝ)) + 1 ≤ (k : ℝ) ^ (1.4 : ℝ) := by
    have hc := NNReal.coe_le_coe.mpr h1
    rw [NNReal.coe_add, NNReal.coe_one, NNReal.coe_rpow, NNReal.coe_rpow,
      NNReal.coe_natCast, NNReal.coe_natCast] at hc
    exact hc
  calc round ((m : ℝ) ^ (1.4 : ℝ))
      < round ((m : ℝ) ^ (1.4 : ℝ)) + 1 := by omega
    _ = round (((m : ℝ) ^ (1.4 : ℝ)) + 1) := (round_add_one _).symm
    _ ≤ round ((k : ℝ) ^ (1.4 : ℝ)) := by
        rw [round_eq, round_eq]
        exact Int.floor_mono (by linarith)

theorem round_rpow_nonneg (m : ℕ) : 0 ≤ round ((m : ℝ) ^ (1.4 : ℝ)) := by
  have h0 : (0 : ℝ) ≤ (m : ℝ) ^ (1.4 : ℝ) := Real.rpow_nonneg (by positivity) _
  rw [round_eq]
  exact Int.le_floor.mpr (by push_cast; linarith)

theorem round_rpow_zero : round (((0 : ℕ) : ℝ) ^ (1.4 : ℝ)) = 0 := by
  rw [Nat.cast_zero, Real.zero_rpow (by norm_num)]
  exact round_zero

/-- C9 (amended): the deadline term is strictly monotone in the computed
"minutes before EOD" — of two packages, the one whose deadline leaves more
whole minutes before 11:59:59 PM gets a strictly larger deadline-term
contribution — the EOD deadline itself contributes exactly zero, and zero is
the least possible contribution. -/
theorem C9_deadline_term (d1 d2 : ℕ) :
    (minutesBeforeEOD d2 < minutesBeforeEOD d1 → deadlineTerm d2 < deadlineTerm d1)
    ∧ deadlineTerm 86399 = 0
    ∧ 0 ≤ deadlineTerm d1 := by
  refine ⟨fun h => round_rpow_strict h, ?_, round_rpow_nonneg _⟩
  have h0 : minutesBeforeEOD 86399 = 0 := by decide
  unfold deadlineTerm
  rw [h0]
  exact round_rpow_zero

theorem C9_deadline_term_witness :
    minutesBeforeEOD 86399 < minutesBeforeEOD 86339
    ∧ deadlineTerm 86399 < deadlineTerm 86339 := by
  exact ⟨by decide, (C9_deadline_term 86339 86399).1 (by decide)⟩

/-- C9 (counterexample): a deadline of 11:59:00 PM (86340 seconds) is strictly
earlier than the EOD deadline 11:59:59 PM (86399 seconds), yet both leave zero
whole minutes before EOD and therefore receive the same deadline-term
contribution 0 — the term is not strictly monotone in the raw deadline. -/
theorem C9_counterexample :
    86340 < 86399
    ∧ deadlineTerm 86340 = 0
    ∧ deadlineTerm 86399 = 0 := by
  refine ⟨by decide, ?_, (C9_deadline_term 0 0).2.1⟩
  have h0 : minutesBeforeEOD 86340 = 0 := by decide
  unfold deadlineTerm
  rw [h0]
  exact round_rpow_zero

/-- Lookup in a Python dict modelled as an insertion-ordered association
list (`d[k]` / `d.get(k)`): first entry with the key. -/
def alookup {α : Type} : List (ℕ × α) → ℕ → Option α
  | [], _ => none
  | (k, v) :: rest, key => if k = key then some v else alookup rest key

/-- Assignment `d[k] = v` on a Python dict: replace the value in place if the
key exists, otherwise append the new entry. -/
def ainsert {α : Type} : List (ℕ × α) → ℕ → α → List (ℕ × α)
  | [], key, v => [(key, v)]
  | (k, w) :: rest, key, v =>
    if k = key then (key, v) :: rest else (k, w) :: ainsert rest key v

theorem alookup_ainsert_self {α : Type} (l : List (ℕ × α)) (k : ℕ) (v : α) :
    alookup (ainsert l k v) k = some v := by
  induction l with
  | nil => simp [ainsert, alookup]
  | cons e rest ih =>
    obtain ⟨k2, w⟩ := e
    unfold ainsert
    by_cases h : k2 = k
    · rw [if_pos h]; simp [alookup]
    · rw [if_neg h]; unfold alookup; rw [if_neg h]; exact ih

theorem alookup_ainsert_ne {α : Type} (l : List (ℕ × α)) (k k2 : ℕ) (v : α)
    (h : k ≠ k2) : alookup (ainsert l k v) k2 = alookup l k2 := by
  induction l with
  | nil => simp [ainsert, alookup, h]
  | cons e rest ih =>
    obtain ⟨k3, w⟩ := e
    unfold ainsert
    by_cases h3 : k3 = k
    · rw [if_pos h3]
      unfold alookup
      rw [if_neg h, h3, if_neg h]
    · rw [if_neg h3]
      unfold alookup
      by_cases h4 : k3 = k2
      · rw [if_pos h4, if_pos h4]
      · rw [if_neg h4, if_neg h4]; exact ih

theorem ainsert_keys_of_mem {α : Type} (l : List (ℕ × α)) (k : ℕ) (v w : α)
    (h : alookup l k = some w) :
    (ainsert l k v).map Prod.fst = l.map Prod.fst := by
  induction l with
  | nil => simp [alookup] at h
  | cons e rest ih =>
    obtain ⟨k2, u⟩ := e
    unfold alookup at h
    unfold ainsert
    by_cases h2 : k2 = k
    · rw [if_pos h2]; simp [h2]
    · rw [if_neg h2] at h ⊢
      simpa using ih h

theorem alookup_isSome_of_keys {α : Type} (l : List (ℕ × α)) (k : ℕ)
    (h : k ∈ l.map Prod.fst) : ∃ v, alookup l k = some v := by
  induction l with
  | nil => simp at h
  | cons e rest ih =>
    obtain ⟨k2, u⟩ := e
    unfold alookup
    by_cases h2 : k2 = k
    · rw [if_pos h2]; exact ⟨u, rfl⟩
    · rw [if_neg h2]
      apply ih
      simp only [List.map_cons, List.mem_cons] at h
      rcases h with h | h
      · exact absurd h.symm h2
      · exact h

theorem alookup_map_const {α : Type} (locs : List ℕ) (c : α) (k : ℕ)
    (h : k ∈ locs) : alookup (locs.map (fun l => (l, c))) k = some c := by
  induction locs with
  | nil => simp at h
  | cons a rest ih =>
    simp only [List.map_cons]
    unfold alookup
    by_cases h2 : a = k
    · rw [if_pos h2]
    · rw [if_neg h2]
      apply ih
      rcases List.mem_cons.mp h with h3 | h3
      · exact absurd h3.symm h2
      · exact h3

/-- Python's `heapq` binary min-heap, parameterized by the comparison the
pushed items use (`<` on `(distance, Location)` tuples in `Scheduler.dijkstra`,
which falls back to `Location.__lt__` on distance ties).  `siftdownGo` is
`heapq._siftdown` with the loop turned into recursion on a fuel that bounds
`pos` (the position strictly descends toward `startpos`, so `fuel = pos`
suffices and the fuel arm is unreachable). -/
def siftdownGo {α : Type} [Inhabited α] (lt : α → α → Bool) :
    ℕ → List α → ℕ → ℕ → α → List α
  | 0, heap, _, pos, newitem => heap.set pos newitem
  | fuel + 1, heap, startpos, pos, newitem =>
    if startpos < pos then
      let parentpos := (pos - 1) / 2
      let parent := heap.getD parentpos default
      if lt newitem parent then
        siftdownGo lt fuel (heap.set pos parent) startpos parentpos newitem
      else heap.set pos newitem
    else heap.set pos newitem

/-- Python's `heapq._siftup`, with the loop recursed on a fuel bounding the
number of levels (`endpos` iterations always suffice). -/
def siftupGo {α : Type} [Inhabited α] (lt : α → α → Bool) :
    ℕ → List α → ℕ → ℕ → α → List α
  | 0, heap, startpos, pos, newitem =>
    siftdownGo lt pos (heap.set pos newitem) startpos pos newitem
  | fuel + 1, heap, startpos, pos, newitem =>
    let endpos := heap.length
    let childpos := 2 * pos + 1
    if childpos < endpos then
      let rightpos := childpos + 1
      let childpos2 :=
        if rightpos < endpos ∧ ¬ (lt (heap.getD childpos default) (heap.getD rightpos default))
        then rightpos else childpos
      siftupGo lt fuel (heap.set pos (heap.getD childpos2 default)) startpos childpos2 newitem
    else
      siftdownGo lt pos (heap.set pos newitem) startpos pos newitem

/-- Python's `heapq.heappush`. -/
def heappush {α : Type} [Inhabited α] (lt : α → α → Bool) (heap : List α) (item : α) :
    List α :=
  let h2 := heap ++ [item]
  siftdownGo lt (h2.length - 1) h2 0 (h2.length - 1) item

/-- Python's `heapq.heappop`; `none` is the IndexError on an empty heap (the
caller's `while heap:` guard keeps that unreachable). -/
def heappop {α : Type} [Inhabited α] (lt : α → α → Bool) (heap : List α) :
    Option (α × List α) :=
  match heap.getLast? with
  | none => none
  | some lastelt =>
    let rest := heap.dropLast
    if 0 < rest.length then
      let returnitem := rest.getD 0 default
      some (returnitem, siftupGo lt rest.length (rest.set 0 lastelt) 0 0 lastelt)
    else some (lastelt, [])


open List

theorem set_append_last {α : Type} :
    ∀ (l : List α) (x y : α), (l ++ [x]).set l.length y = l ++ [y]
  | [], _, _ => rfl
  | a :: rest, x, y => by
    show a :: (rest ++ [x]).set rest.length y = a :: (rest ++ [y])
    rw [set_append_last rest x y]

theorem getD_cons_set_perm {α : Type} [Inhabited α] :
    ∀ (l : List α) (k : ℕ) (b : α), k < l.length →
      (l.getD k default) :: l.set k b ~ b :: l
  | y :: ys, 0, b, _ => by
    simpa [List.getD] using List.Perm.swap b y ys
  | y :: ys, k + 1, b, h => by
    have hk : k < ys.length := by simpa using h
    have ih := getD_cons_set_perm ys k b hk
    calc (y :: ys).getD (k + 1) default :: (y :: ys).set (k + 1) b
        = (ys.getD k default) :: y :: ys.set k b := by simp [List.set, List.getD]
      _ ~ y :: (ys.getD k default) :: ys.set k b := List.Perm.swap _ _ _
      _ ~ y :: b :: ys := ih.cons y
      _ ~ b :: y :: ys := List.Perm.swap _ _ _

theorem set_head_swap_perm {α : Type} :
    ∀ (l : List α) (k : ℕ) (a c : α), k < l.length →
      a :: l.set k c ~ c :: l.set k a
  | y :: ys, 0, a, c, _ => by
    simpa [List.set] using List.Perm.swap c a ys
  | y :: ys, k + 1, a, c, h => by
    have hk : k < ys.length := by simpa using h
    have ih := set_head_swap_perm ys k a c hk
    calc a :: (y :: ys).set (k + 1) c
        = a :: y :: ys.set k c := by simp [List.set]
      _ ~ y :: a :: ys.set k c := List.Perm.swap _ _ _
      _ ~ y :: c :: ys.set k a := ih.cons y
      _ ~ c :: y :: ys.set k a := List.Perm.swap _ _ _
      _ = c :: (y :: ys).set (k + 1) a := by simp [List.set]

theorem set_set_perm {α : Type} [Inhabited α] :
    ∀ (l : List α) (i j : ℕ) (b : α), i < l.length → j < l.length → i ≠ j →
      (l.set i (l.getD j default)).set j b ~ l.set i b := by
  intro l
  induction l with
  | nil => intro i j b hi _ _; simp at hi
  | cons x xs ih =>
    intro i j b hi hj hij
    match i, j with
    | 0, 0 => exact absurd rfl hij
    | 0, k + 1 =>
      have hk : k < xs.length := by simpa using hj
      calc ((x :: xs).set 0 ((x :: xs).getD (k + 1) default)).set (k + 1) b
          = (xs.getD k default) :: xs.set k b := by simp [List.set, List.getD]
        _ ~ b :: xs := getD_cons_set_perm xs k b hk
        _ = (x :: xs).set 0 b := by simp [List.set]
    | m + 1, 0 =>
      have hm : m < xs.length := by simpa using hi
      calc ((x :: xs).set (m + 1) ((x :: xs).getD 0 default)).set 0 b
          = b :: xs.set m x := by simp [List.set, List.getD]
        _ ~ x :: xs.set m b := set_head_swap_perm xs m b x hm
        _ = (x :: xs).set (m + 1) b := by simp [List.set]
    | m + 1, k + 1 =>
      have hm : m < xs.length := by simpa using hi
      have hk : k < xs.length := by simpa using hj
      have hmk : m ≠ k := fun h2 => hij (by rw [h2])
      have hstep := ih m k b hm hk hmk
      calc ((x :: xs).set (m + 1) ((x :: xs).getD (k + 1) default)).set (k + 1) b
          = x :: ((xs.set m (xs.getD k default)).set k b) := by simp [List.set, List.getD]
        _ ~ x :: xs.set m b := hstep.cons x
        _ = (x :: xs).set (m + 1) b := by simp [List.set]

theorem siftdownGo_perm {α : Type} [Inhabited α] (lt : α → α → Bool) :
    ∀ (fuel : ℕ) (heap : List α) (startpos pos : ℕ) (newitem : α),
      pos < heap.length →
      siftdownGo lt fuel heap startpos pos newitem ~ heap.set pos newitem := by
  intro fuel
  induction fuel with
  | zero => intro heap startpos pos newitem _; exact List.Perm.refl _
  | succ n ih =>
    intro heap startpos pos newitem hpos
    unfold siftdownGo
    by_cases h : startpos < pos
    · rw [if_pos h]
      by_cases h2 : lt newitem (heap.getD ((pos - 1) / 2) default) = true
      · rw [if_pos h2]
        have hpp2 : (pos - 1) / 2 < (heap.set pos (heap.getD ((pos - 1) / 2) default)).length := by
          rw [List.length_set]; omega
        refine (ih _ _ _ _ hpp2).trans ?_
        exact set_set_perm heap pos ((pos - 1) / 2) newitem hpos (by omega) (by omega)
      · rw [if_neg h2]
    · rw [if_neg h]

theorem siftupGo_perm {α : Type} [Inhabited α] (lt : α → α → Bool) :
    ∀ (fuel : ℕ) (heap : List α) (startpos pos : ℕ) (newitem : α),
      pos < heap.length →
      siftupGo lt fuel heap startpos pos newitem ~ heap.set pos newitem := by
  intro fuel
  induction fuel with
  | zero =>
    intro heap startpos pos newitem hpos
    unfold siftupGo
    have h1 : pos < (heap.set pos newitem).length := by rw [List.length_set]; exact hpos
    refine (siftdownGo_perm lt pos _ startpos pos newitem h1).trans ?_
    rw [List.set_set]
  | succ n ih =>
    intro heap startpos pos newitem hpos
    unfold siftupGo
    dsimp only
    by_cases h : 2 * pos + 1 < heap.length
    · rw [if_pos h]
      by_cases h2 : 2 * pos + 1 + 1 < heap.length ∧
          ¬ (lt (heap.getD (2 * pos + 1) default) (heap.getD (2 * pos + 1 + 1) default)) = true
      · rw [if_pos h2]
        have hc : 2 * pos + 1 + 1 < (heap.set pos (heap.getD (2 * pos + 1 + 1) default)).length := by
          rw [List.length_set]; exact h2.1
        refine (ih _ _ _ _ hc).trans ?_
        exact set_set_perm heap pos (2 * pos + 1 + 1) newitem hpos h2.1 (by omega)
      · rw [if_neg h2]
        have hc : 2 * pos + 1 < (heap.set pos (heap.getD (2 * pos + 1) default)).length := by
          rw [List.length_set]; exact h
        refine (ih _ _ _ _ hc).trans ?_
        exact set_set_perm heap pos (2 * pos + 1) newitem hpos h (by omega)
    · rw [if_neg h]
      have h1 : pos < (heap.set pos newitem).length := by rw [List.length_set]; exact hpos
      refine (siftdownGo_perm lt pos _ startpos pos newitem h1).trans ?_
      rw [List.set_set]

theorem heappush_perm {α : Type} [Inhabited α] (lt : α → α → Bool)
    (heap : List α) (item : α) : heappush lt heap item ~ item :: heap := by
  unfold heappush
  have hpos : (heap ++ [item]).length - 1 < (heap ++ [item]).length := by simp
  refine (siftdownGo_perm lt _ _ 0 _ item hpos).trans ?_
  have hlen : (heap ++ [item]).length - 1 = heap.length := by simp
  rw [hlen, set_append_last heap item item]
  exact List.perm_append_singleton item heap

theorem heappop_spec {α : Type} [Inhabited α] (lt : α → α → Bool)
    (heap : List α) (hne : heap ≠ []) :
    ∃ rest, heappop lt heap = some (heap.getD 0 default, rest) ∧ rest ~ heap.tail := by
  obtain ⟨x, xs, rfl⟩ := List.exists_cons_of_ne_nil hne
  unfold heappop
  rw [List.getLast?_eq_getLast_of_ne_nil hne]
  by_cases hxs : xs = []
  · subst hxs
    refine ⟨[], ?_, List.Perm.refl _⟩
    simp [List.getLast, List.dropLast]
  · have hdl : (x :: xs).dropLast = x :: xs.dropLast := by
      cases xs with
      | nil => exact absurd rfl hxs
      | cons b bs => rfl
    have hlen : 0 < (x :: xs).dropLast.length := by rw [hdl]; simp
    dsimp only
    rw [if_pos hlen]
    refine ⟨siftupGo lt (x :: xs).dropLast.length
      ((x :: xs).dropLast.set 0 ((x :: xs).getLast hne)) 0 0 ((x :: xs).getLast hne), ?_, ?_⟩
    · have hret : (x :: xs).dropLast.getD 0 default = (x :: xs).getD 0 default := by
        rw [hdl]; rfl
      rw [hret]
    · have hset : ((x :: xs).dropLast.set 0 ((x :: xs).getLast hne)) =
          (x :: xs).getLast hne :: xs.dropLast := by
        rw [hdl]; rfl
    -- the reordered heap is a permutation of the tail
      have hperm := siftupGo_perm lt ((x :: xs).dropLast.length)
        ((x :: xs).dropLast.set 0 ((x :: xs).getLast hne)) 0 0 ((x :: xs).getLast hne)
        (by rw [List.length_set]; exact hlen)
      refine hperm.trans ?_
      rw [List.set_set, hset]
      have hlast : (x :: xs).getLast hne = xs.getLast hxs := by
        cases xs with
        | nil => exact absurd rfl hxs
        | cons b bs => rfl
      rw [hlast]
      show xs.getLast hxs :: xs.dropLast ~ (x :: xs).tail
      have hx2 : xs.dropLast ++ [xs.getLast hxs] = xs := List.dropLast_append_getLast hxs
      calc xs.getLast hxs :: xs.dropLast
          ~ xs.dropLast ++ [xs.getLast hxs] := (List.perm_append_singleton _ _).symm
        _ = xs := hx2
        _ = (x :: xs).tail := rfl

/-- The location graph as `Scheduler.dijkstra` sees it: the `locations` set it
receives (listed without duplicates), each location's `_distance_table` dict as
an ordered association list (filled symmetrically by `Location.add_distance`),
and each location's name — the heap's tuple comparison falls back to
`Location.__lt__`, which compares names, when distances tie. -/
structure LGraph where
  locs : List ℕ
  nbrs : ℕ → List (ℕ × ℚ)
  nm : ℕ → String

/-- Python `<` on `(distance, Location)` heap tuples. -/
def itemLt (G : LGraph) (a b : ℚ × ℕ) : Bool :=
  if a.1 < b.1 then true
  else if a.1 = b.1 then decide (G.nm a.2 < G.nm b.2)
  else false

/-- Weight of the edge from `a` to `b`: the entry for `b` in `a`'s distance
table (`a.distance_from(b)` / the iteration of `a.neighbors()`). -/
def edgeW (G : LGraph) (a b : ℕ) : Option ℚ :=
  ((G.nbrs a).find? (fun e => e.1 == b)).map Prod.snd

/-- A list of locations whose consecutive pairs are all linked in the graph. -/
def chainOk (G : LGraph) : List ℕ → Bool
  | a :: b :: rest => (edgeW G a b).isSome && chainOk G (b :: rest)
  | _ => true

/-- Total edge distance along a list of locations (`none` on a missing link). -/
def chainDist (G : LGraph) : List ℕ → Option ℚ
  | a :: b :: rest =>
    match edgeW G a b, chainDist G (b :: rest) with
    | some w, some r => some (w + r)
    | _, _ => none
  | _ => some 0

/-- Reachability: some linked chain leads from `s` to `e`. -/
def Reach (G : LGraph) (s e : ℕ) : Prop :=
  ∃ p, chainOk G p = true ∧ p.head? = some s ∧ p.getLast? = some e

/-- Well-formedness of the graphs the program builds: the location set has no
duplicates, every distance table has unique keys, tables only mention
locations of the set, and distances are nonnegative. -/
structure GraphOk (G : LGraph) : Prop where
  locs_nodup : G.locs.Nodup
  nbrs_nodup : ∀ l ∈ G.locs, ((G.nbrs l).map Prod.fst).Nodup
  closed : ∀ l ∈ G.locs, ∀ e ∈ G.nbrs l, e.1 ∈ G.locs
  nonneg : ∀ l ∈ G.locs, ∀ e ∈ G.nbrs l, 0 ≤ e.2

theorem edgeW_mem_of_some (G : LGraph) (a b : ℕ) (w : ℚ)
    (h : edgeW G a b = some w) : ∃ e ∈ G.nbrs a, e.1 = b ∧ e.2 = w := by
  unfold edgeW at h
  obtain ⟨e, he, hmap⟩ := Option.map_eq_some'.mp h
  refine ⟨e, List.mem_of_find?_eq_some he, ?_, hmap⟩
  simpa using List.find?_some he

theorem find?_key_nodup {l : List (ℕ × ℚ)} {b : ℕ} {w : ℚ}
    (hnd : (l.map Prod.fst).Nodup) (hmem : (b, w) ∈ l) :
    l.find? (fun e => e.1 == b) = some (b, w) := by
  induction l with
  | nil => simp at hmem
  | cons e rest ih =>
    obtain ⟨k, v⟩ := e
    simp only [List.map_cons, List.nodup_cons] at hnd
    rcases List.mem_cons.mp hmem with h | h
    · rw [List.find?_cons]
      have : ((k, v).1 == b) = true := by
        obtain ⟨h1, h2⟩ := Prod.mk.injEq .. ▸ h.symm
        simp [h1.symm]
      rw [this]
      obtain ⟨h1, h2⟩ := Prod.mk.injEq .. ▸ h.symm
      rw [h1, h2]
    · rw [List.find?_cons]
      by_cases hk : k = b
      · exfalso
        apply hnd.1
        subst hk
        exact List.mem_map_of_mem Prod.fst h
      · have : ((k, v).1 == b) = false := by simp [hk]
        rw [this]
        exact ih hnd.2 h

theorem edgeW_of_mem (G : LGraph) (a b : ℕ) (w : ℚ)
    (hnd : ((G.nbrs a).map Prod.fst).Nodup) (hmem : (b, w) ∈ G.nbrs a) :
    edgeW G a b = some w := by
  unfold edgeW
  rw [find?_key_nodup hnd hmem]
  rfl

theorem edgeW_nonneg (G : LGraph) (hG : GraphOk G) (a b : ℕ) (w : ℚ)
    (ha : a ∈ G.locs) (h : edgeW G a b = some w) : 0 ≤ w := by
  obtain ⟨e, he, _, hw⟩ := edgeW_mem_of_some G a b w h
  exact hw ▸ hG.nonneg a ha e he

theorem edgeW_closed (G : LGraph) (hG : GraphOk G) (a b : ℕ) (w : ℚ)
    (ha : a ∈ G.locs) (h : edgeW G a b = some w) : b ∈ G.locs := by
  obtain ⟨e, he, hb, _⟩ := edgeW_mem_of_some G a b w h
  exact hb ▸ hG.closed a ha e he

theorem chainOk_chainDist (G : LGraph) :
    ∀ p, chainOk G p = true → ∃ d, chainDist G p = some d := by
  intro p
  induction p with
  | nil => intro _; exact ⟨0, rfl⟩
  | cons a rest ih =>
    intro h
    cases rest with
    | nil => exact ⟨0, rfl⟩
    | cons b rest2 =>
      unfold chainOk at h
      rw [Bool.and_eq_true] at h
      obtain ⟨w, hw⟩ := Option.isSome_iff_exists.mp h.1
      obtain ⟨d, hd⟩ := ih h.2
      refine ⟨w + d, ?_⟩
      unfold chainDist
      rw [hw, hd]

theorem chainDist_nonneg (G : LGraph) (hG : GraphOk G) :
    ∀ p d, chainOk G p = true → (∀ x ∈ p, x ∈ G.locs) →
      chainDist G p = some d → 0 ≤ d := by
  intro p
  induction p with
  | nil => intro d _ _ hd; simp [chainDist] at hd; linarith
  | cons a rest ih =>
    intro d hok hmem hd
    cases rest with
    | nil => simp [chainDist] at hd; linarith
    | cons b rest2 =>
      unfold chainOk at hok
      rw [Bool.and_eq_true] at hok
      obtain ⟨w, hw⟩ := Option.isSome_iff_exists.mp hok.1
      obtain ⟨r, hr⟩ := chainOk_chainDist G _ hok.2
      unfold chainDist at hd
      rw [hw, hr] at hd
      have hd2 : d = w + r := by
        injection hd with h2
        exact h2.symm
      have hwn : 0 ≤ w := edgeW_nonneg G hG a b w (hmem a (by simp)) hw
      have hrn : 0 ≤ r := ih r hok.2 (fun x hx => hmem x (List.mem_cons_of_mem a hx)) hr
      rw [hd2]
      linarith

theorem chainOk_append_single (G : LGraph) :
    ∀ p x y, chainOk G p = true → p.getLast? = some x →
      (edgeW G x y).isSome = true → chainOk G (p ++ [y]) = true := by
  intro p
  induction p with
  | nil => intro x y _ hlast _; simp at hlast
  | cons a rest ih =>
    intro x y hok hlast hw
    cases rest with
    | nil =>
      have hax : a = x := by simpa using hlast
      subst hax
      show chainOk G (a :: y :: []) = true
      unfold chainOk
      rw [Bool.and_eq_true]
      exact ⟨hw, rfl⟩
    | cons b rest2 =>
      unfold chainOk at hok
      rw [Bool.and_eq_true] at hok
      have hlast2 : (b :: rest2).getLast? = some x := by
        rw [← hlast]; exact (List.getLast?_cons_cons ..).symm
      have hrec := ih x y hok.2 hlast2 hw
      show chainOk G (a :: b :: (rest2 ++ [y])) = true
      unfold chainOk
      rw [Bool.and_eq_true]
      exact ⟨hok.1, hrec⟩

theorem chainDist_append_single (G : LGraph) :
    ∀ p x y d wxy, p.getLast? = some x → edgeW G x y = some wxy →
      chainDist G p = some d → chainDist G (p ++ [y]) = some (d + wxy) := by
  intro p
  induction p with
  | nil => intro x y d wxy hlast _ _; simp at hlast
  | cons a rest ih =>
    intro x y d wxy hlast hw hd
    cases rest with
    | nil =>
      have hax : a = x := by simpa using hlast
      subst hax
      have hd0 : d = 0 := by
        unfold chainDist at hd
        injection hd with h2
        exact h2.symm
      show chainDist G (a :: y :: []) = some (d + wxy)
      unfold chainDist
      rw [hw]
      show some (wxy + 0) = some (d + wxy)
      rw [hd0]
      congr 1
      ring
    | cons b rest2 =>
      unfold chainDist at hd
      cases hw1 : edgeW G a b with
      | none => rw [hw1] at hd; simp at hd
      | some w1 =>
        cases hr : chainDist G (b :: rest2) with
        | none => rw [hw1, hr] at hd; simp at hd
        | some r =>
          rw [hw1, hr] at hd
          have hd2 : d = w1 + r := by injection hd with h2; exact h2.symm
          have hlast2 : (b :: rest2).getLast? = some x := by
            rw [← hlast]; exact (List.getLast?_cons_cons ..).symm
          have hrec := ih x y r wxy hlast2 hw hr
          show chainDist G (a :: b :: (rest2 ++ [y])) = some (d + wxy)
          unfold chainDist
          rw [hw1]
          have hrec2 : chainDist G (b :: (rest2 ++ [y])) = some (r + wxy) := hrec
          rw [hrec2, hd2]
          congr 1
          ring

/-- Concatenation of a list of lists. -/
def catLists {α : Type} : List (List α) → List α
  | [] => []
  | l :: rest => l ++ catLists rest

theorem mem_catLists {α : Type} (ls : List (List α)) (x : α) :
    x ∈ catLists ls ↔ ∃ l ∈ ls, x ∈ l := by
  induction ls with
  | nil => simp [catLists]
  | cons l rest ih =>
    unfold catLists
    rw [List.mem_append, ih]
    constructor
    · rintro (h | ⟨l2, h1, h2⟩)
      · exact ⟨l, List.mem_cons_self l rest, h⟩
      · exact ⟨l2, List.mem_cons_of_mem l h1, h2⟩
    · rintro ⟨l2, h1, h2⟩
      rcases List.mem_cons.mp h1 with h3 | h3
      · exact Or.inl (h3 ▸ h2)
      · exact Or.inr ⟨l2, h3, h2⟩

/-- All edge entries of the graph, keyed by the ordered location pair. -/
def edgeList (G : LGraph) : List ((ℕ × ℕ) × ℚ) :=
  catLists (G.locs.map (fun l => (G.nbrs l).map (fun e => ((l, e.1), e.2))))

/-- All edge weights of the graph. -/
def edgeWeights (G : LGraph) : List ℚ :=
  (edgeList G).map Prod.snd

theorem mem_edgeList_iff (G : LGraph) (x : (ℕ × ℕ) × ℚ) :
    x ∈ edgeList G ↔ ∃ l ∈ G.locs, ∃ e ∈ G.nbrs l, x = ((l, e.1), e.2) := by
  unfold edgeList
  rw [mem_catLists]
  constructor
  · rintro ⟨bl, hbl, hx⟩
    obtain ⟨l, hl, rfl⟩ := List.mem_map.mp hbl
    obtain ⟨e, he, hex⟩ := List.mem_map.mp hx
    exact ⟨l, hl, e, he, hex.symm⟩
  · rintro ⟨l, hl, e, he, rfl⟩
    exact ⟨(G.nbrs l).map (fun e => ((l, e.1), e.2)), List.mem_map_of_mem _ hl,
      List.mem_map_of_mem _ he⟩

theorem edgeList_keys_nodup (G : LGraph) (hG : GraphOk G) :
    ((edgeList G).map Prod.fst).Nodup := by
  unfold edgeList
  have main : ∀ (ls : List ℕ), ls.Nodup → (∀ l ∈ ls, l ∈ G.locs) →
      ((catLists (ls.map (fun l => (G.nbrs l).map (fun e => ((l, e.1), e.2))))).map
        Prod.fst).Nodup := by
    intro ls
    induction ls with
    | nil => intro _ _; simp [catLists]
    | cons l rest ih =>
      intro hnd hmem
      rw [List.nodup_cons] at hnd
      show ((((G.nbrs l).map (fun e => ((l, e.1), e.2))) ++
        catLists (rest.map (fun l => (G.nbrs l).map (fun e => ((l, e.1), e.2))))).map
          Prod.fst).Nodup
      rw [List.map_append, List.nodup_append]
      refine ⟨?_, ih hnd.2 (fun x hx => hmem x (List.mem_cons_of_mem l hx)), ?_⟩
      · have hk := hG.nbrs_nodup l (hmem l (List.mem_cons_self l rest))
        rw [List.map_map]
        have heq : (Prod.fst ∘ fun e : ℕ × ℚ => ((l, e.1), e.2)) =
            (fun k : ℕ => (l, k)) ∘ Prod.fst := rfl
        rw [heq, ← List.map_map]
        exact hk.map (fun a b hab => (Prod.mk.inj hab).2)
      · intro a ha hb
        rw [List.map_map] at ha
        obtain ⟨e1, he1, rfl⟩ := List.mem_map.mp ha
        rw [List.mem_map] at hb
        obtain ⟨y, hy, hyb⟩ := hb
        rw [mem_catLists] at hy
        obtain ⟨bl, hbl, hybl⟩ := hy
        obtain ⟨l2, hl2, rfl⟩ := List.mem_map.mp hbl
        obtain ⟨e2, he2, rfl⟩ := List.mem_map.mp hybl
        have h5 : (l2, e2.1) = (l, e1.1) := hyb
        injection h5 with h6 h7
        exact hnd.1 (h6 ▸ hl2)
  exact main G.locs hG.locs_nodup (fun l hl => hl)

/-- Sums of subsets of a multiset of rationals, as a finite set: every value a
strictly-improving relaxation can store is one of these. -/
def subSums : List ℚ → Finset ℚ
  | [] => {0}
  | w :: ws => subSums ws ∪ (subSums ws).image (fun x => w + x)

theorem zero_mem_subSums : ∀ ws : List ℚ, (0 : ℚ) ∈ subSums ws
  | [] => by simp [subSums]
  | w :: ws => by
    unfold subSums
    exact Finset.mem_union_left _ (zero_mem_subSums ws)

theorem sum_mem_subSums {K : Type} [DecidableEq K] :
    ∀ (L xs : List (K × ℚ)), (L.map Prod.fst).Nodup → (xs.map Prod.fst).Nodup →
      (∀ x ∈ xs, x ∈ L) → (xs.map Prod.snd).sum ∈ subSums (L.map Prod.snd) := by
  intro L
  induction L with
  | nil =>
    intro xs _ _ hsub
    have hxe : xs = [] := by
      cases xs with
      | nil => rfl
      | cons x rest => exact absurd (hsub x (List.mem_cons_self x rest)) (by simp)
    subst hxe
    simp [subSums]
  | cons e L2 ih =>
    intro xs hLnd hxnd hsub
    rw [List.map_cons, List.nodup_cons] at hLnd
    show (xs.map Prod.snd).sum ∈ subSums (e.2 :: L2.map Prod.snd)
    by_cases hmem : e ∈ xs
    · obtain ⟨s, t, rfl⟩ := List.mem_iff_append.mp hmem
      have hperm : s ++ e :: t ~ e :: (s ++ t) := List.perm_middle
      have hkeys : (e.1 :: (s ++ t).map Prod.fst).Nodup := by
        have h2 := (hperm.map Prod.fst).nodup hxnd
        rw [List.map_cons] at h2
        exact h2
      rw [List.nodup_cons] at hkeys
      have hsum : ((s ++ e :: t).map Prod.snd).sum = e.2 + ((s ++ t).map Prod.snd).sum := by
        have h3 := List.Perm.sum_eq (hperm.map Prod.snd)
        rw [List.map_cons, List.sum_cons] at h3
        exact h3
      have hsub2 : ∀ x ∈ s ++ t, x ∈ L2 := by
        intro x hx
        have hx2 : x ∈ s ++ e :: t := by
          rcases List.mem_append.mp hx with h4 | h4
          · exact List.mem_append_left _ h4
          · exact List.mem_append_right _ (List.mem_cons_of_mem e h4)
        rcases List.mem_cons.mp (hsub x hx2) with h4 | h4
        · exfalso
          apply hkeys.1
          rw [← h4]
          exact List.mem_map_of_mem Prod.fst hx
        · exact h4
      have hin := ih (s ++ t) hLnd.2 hkeys.2 hsub2
      rw [hsum]
      unfold subSums
      exact Finset.mem_union_right _ (Finset.mem_image_of_mem _ hin)
    · have hsub2 : ∀ x ∈ xs, x ∈ L2 := by
        intro x hx
        rcases List.mem_cons.mp (hsub x hx) with h4 | h4
        · exact absurd (h4 ▸ hx) hmem
        · exact h4
      have hin := ih xs hLnd.2 hxnd hsub2
      unfold subSums
      exact Finset.mem_union_left _ hin

/-- The consecutive edge entries a linked chain traverses, with their keys. -/
def chainEdgeList (G : LGraph) : List ℕ → List ((ℕ × ℕ) × ℚ)
  | a :: b :: rest =>
    match edgeW G a b with
    | some w => ((a, b), w) :: chainEdgeList G (b :: rest)
    | none => chainEdgeList G (b :: rest)
  | _ => []

theorem chainDist_eq_sum (G : LGraph) :
    ∀ p, chainOk G p = true →
      chainDist G p = some ((chainEdgeList G p).map Prod.snd).sum := by
  intro p
  induction p with
  | nil => intro _; simp [chainDist, chainEdgeList]
  | cons a rest ih =>
    intro hok
    cases rest with
    | nil => simp [chainDist, chainEdgeList]
    | cons b rest2 =>
      unfold chainOk at hok
      rw [Bool.and_eq_true] at hok
      obtain ⟨w, hw⟩ := Option.isSome_iff_exists.mp hok.1
      have hrec := ih hok.2
      show chainDist G (a :: b :: rest2) = _
      unfold chainDist chainEdgeList
      rw [hw, hrec]
      simp

theorem mem_zip_tail_fst : ∀ (p : List ℕ) (x : ℕ × ℕ), x ∈ p.zip p.tail → x.1 ∈ p := by
  intro p
  induction p with
  | nil => intro x hx; simp [List.zip] at hx
  | cons a rest ih =>
    intro x hx
    cases rest with
    | nil => simp [List.zip] at hx
    | cons b rest2 =>
      show x.1 ∈ a :: b :: rest2
      have hx2 : x ∈ (a, b) :: ((b :: rest2).zip rest2) := hx
      rcases List.mem_cons.mp hx2 with h | h
      · rw [h]; exact List.mem_cons_self a _
      · exact List.mem_cons_of_mem a (ih x h)

theorem zip_tail_nodup : ∀ (p : List ℕ), p.Nodup → (p.zip p.tail).Nodup := by
  intro p
  induction p with
  | nil => intro _; simp [List.zip]
  | cons a rest ih =>
    intro hnd
    rw [List.nodup_cons] at hnd
    cases rest with
    | nil => simp [List.zip]
    | cons b rest2 =>
      show ((a, b) :: ((b :: rest2).zip rest2)).Nodup
      rw [List.nodup_cons]
      refine ⟨?_, ih hnd.2⟩
      intro hcontra
      exact hnd.1 (mem_zip_tail_fst (b :: rest2) (a, b) hcontra)

theorem chainEdgeList_keys (G : LGraph) :
    ∀ p, chainOk G p = true → (chainEdgeList G p).map Prod.fst = p.zip p.tail := by
  intro p
  induction p with
  | nil => intro _; simp [chainEdgeList, List.zip]
  | cons a rest ih =>
    intro hok
    cases rest with
    | nil => simp [chainEdgeList, List.zip]
    | cons b rest2 =>
      unfold chainOk at hok
      rw [Bool.and_eq_true] at hok
      obtain ⟨w, hw⟩ := Option.isSome_iff_exists.mp hok.1
      show (chainEdgeList G (a :: b :: rest2)).map Prod.fst = _
      unfold chainEdgeList
      rw [hw, List.map_cons, ih hok.2]
      rfl

theorem chainEdgeList_mem (G : LGraph) (hG : GraphOk G) :
    ∀ p, chainOk G p = true → (∀ x ∈ p, x ∈ G.locs) →
      ∀ y ∈ chainEdgeList G p, y ∈ edgeList G := by
  intro p
  induction p with
  | nil => intro _ _ y hy; simp [chainEdgeList] at hy
  | cons a rest ih =>
    intro hok hmem y hy
    cases rest with
    | nil => simp [chainEdgeList] at hy
    | cons b rest2 =>
      unfold chainOk at hok
      rw [Bool.and_eq_true] at hok
      obtain ⟨w, hw⟩ := Option.isSome_iff_exists.mp hok.1
      unfold chainEdgeList at hy
      rw [hw] at hy
      rcases List.mem_cons.mp hy with h | h
      · obtain ⟨e, he, hb, hww⟩ := edgeW_mem_of_some G a b w hw
        rw [mem_edgeList_iff]
        refine ⟨a, hmem a (List.mem_cons_self a _), e, he, ?_⟩
        rw [h, ← hb, ← hww]
      · exact ih hok.2 (fun x hx => hmem x (List.mem_cons_of_mem a hx)) y h

/-- Every distance a linked duplicate-free chain inside the location set can
have is a subset sum of the graph's edge weights. -/
theorem chain_mem_subSums (G : LGraph) (hG : GraphOk G) (p : List ℕ) (d : ℚ)
    (hok : chainOk G p = true) (hnd : p.Nodup) (hmem : ∀ x ∈ p, x ∈ G.locs)
    (hd : chainDist G p = some d) : d ∈ subSums (edgeWeights G) := by
  have hsum := chainDist_eq_sum G p hok
  rw [hd] at hsum
  have hdval : d = ((chainEdgeList G p).map Prod.snd).sum := by
    injection hsum
  rw [hdval]
  unfold edgeWeights
  apply sum_mem_subSums (edgeList G) (chainEdgeList G p) (edgeList_keys_nodup G hG)
  · rw [chainEdgeList_keys G p hok]
    exact zip_tail_nodup p hnd
  · exact chainEdgeList_mem G hG p hok hmem

/-- A chain member is the last element of some nonempty prefix. -/
theorem mem_exists_prefix_getLast :
    ∀ (p : List ℕ) (x : ℕ), x ∈ p →
      ∃ q, q ≠ [] ∧ q <+: p ∧ q.getLast? = some x := by
  intro p
  induction p with
  | nil => intro x hx; simp at hx
  | cons a rest ih =>
    intro x hx
    rcases List.mem_cons.mp hx with h | h
    · exact ⟨[a], by simp, ⟨rest, rfl⟩, by rw [h]; rfl⟩
    · obtain ⟨q, hq1, ⟨s, hs⟩, hq3⟩ := ih x h
      refine ⟨a :: q, by simp, ⟨s, by rw [List.cons_append, hs]⟩, ?_⟩
      rw [List.getLast?_cons, hq3]
      cases q with
      | nil => exact absurd rfl hq1
      | cons c cs => simp [List.getLast?_cons]

theorem chainDist_prefix_le (G : LGraph) (hG : GraphOk G) :
    ∀ (q s : List ℕ) (dp dq : ℚ), chainOk G (q ++ s) = true →
      (∀ x ∈ q ++ s, x ∈ G.locs) → chainDist G (q ++ s) = some dp →
      chainDist G q = some dq → dq ≤ dp := by
  intro q
  induction q with
  | nil =>
    intro s dp dq hok hmem hdp hdq
    have hdq0 : dq = 0 := by
      unfold chainDist at hdq
      injection hdq with h
      exact h.symm
    rw [hdq0]
    exact chainDist_nonneg G hG _ dp hok hmem hdp
  | cons a q1 ih =>
    intro s dp dq hok hmem hdp hdq
    cases q1 with
    | nil =>
      have hdq0 : dq = 0 := by
        unfold chainDist at hdq
        injection hdq with h
        exact h.symm
      rw [hdq0]
      exact chainDist_nonneg G hG _ dp hok hmem hdp
    | cons b q2 =>
      have hshape : (a :: b :: q2) ++ s = a :: b :: (q2 ++ s) := rfl
      rw [hshape] at hok hmem hdp
      unfold chainOk at hok
      rw [Bool.and_eq_true] at hok
      obtain ⟨w, hw⟩ := Option.isSome_iff_exists.mp hok.1
      unfold chainDist at hdp hdq
      rw [hw] at hdp hdq
      cases hr : chainDist G (b :: (q2 ++ s)) with
      | none => rw [hr] at hdp; simp at hdp
      | some r =>
        cases hr2 : chainDist G (b :: q2) with
        | none => rw [hr2] at hdq; simp at hdq
        | some r2 =>
          rw [hr] at hdp
          rw [hr2] at hdq
          have hdp2 : dp = w + r := by injection hdp with h; exact h.symm
          have hdq2 : dq = w + r2 := by injection hdq with h; exact h.symm
          have hrec : r2 ≤ r := by
            apply ih s r r2 hok.2 (fun x hx => hmem x (List.mem_cons_of_mem a hx)) hr hr2
          rw [hdp2, hdq2]
          linarith

/-- State of the dijkstra main loop: the `shortest_distances` dict (`none` is
`float('inf')`), the `shortest_paths` dict, and the heap. -/
structure DState where
  dist : List (ℕ × Option ℚ)
  paths : List (ℕ × List ℕ)
  heap : List (ℚ × ℕ)

/-- Python `new_dist < shortest_distances[neighbor]` with `inf` as `none`
(`new_dist` itself is always finite at this point). -/
def ltInf (a : ℚ) : Option ℚ → Bool
  | none => true
  | some b => decide (a < b)

/-- The `for neighbor, distance in current.neighbors().items():` relaxation
loop of `Scheduler.dijkstra` (scheduler.py lines 566-571).  Dict lookups of
missing keys raise KeyError; `shortest_distances[current]` is re-read on every
iteration, as in the source. -/
def relaxGo (G : LGraph) (current : ℕ) :
    List (ℕ × ℚ) → DState → Except String DState
  | [], st => Except.ok st
  | (nb, w) :: rest, st =>
    match alookup st.dist current with
    | none => Except.error "KeyError: shortest_distances[current]"
    | some dcur =>
      match alookup st.dist nb with
      | none => Except.error "KeyError: shortest_distances[neighbor]"
      | some dnb =>
        match dcur with
        | none => relaxGo G current rest st
        | some q =>
          if ltInf (q + w) dnb then
            match alookup st.paths current with
            | none => Except.error "KeyError: shortest_paths[current]"
            | some pcur =>
              relaxGo G current rest
                { dist := ainsert st.dist nb (some (q + w)),
                  paths := ainsert st.paths nb (pcur ++ [nb]),
                  heap := heappush (itemLt G) st.heap (q + w, nb) }
          else relaxGo G current rest st

/-- The `while heap:` loop of `Scheduler.dijkstra` (scheduler.py lines
557-577), including the post-loop returns.  The fuel only bounds the number of
iterations; with the fuel the wrapper supplies it never runs out on a
well-formed graph (`dloopGo_spec`), matching the source, whose loop can only
fail to terminate on graphs with negative distances. -/
def dloopGo (G : LGraph) (endL : ℕ) : ℕ → DState → Except String (List ℕ)
  | 0, _ => Except.error "fuel exhausted"
  | fuel + 1, st =>
    match heappop (itemLt G) st.heap with
    | none =>
      match alookup st.paths endL with
      | none => Except.ok []
      | some p => Except.ok p
    | some (cur, heap2) =>
      if cur.2 = endL then
        match alookup st.paths endL with
        | none => Except.error "KeyError: shortest_paths[end]"
        | some p => Except.ok (p ++ [endL])
      else
        match relaxGo G cur.2 (G.nbrs cur.2) { st with heap := heap2 } with
        | Except.error e => Except.error e
        | Except.ok st2 => dloopGo G endL fuel st2

/-- Number of possible strict improvements left for one distance cell: how
many candidate values below it the graph's subset sums still offer. -/
def rankS (S : Finset ℚ) : Option ℚ → ℕ
  | none => S.card
  | some q => (S.filter (fun s => s < q)).card

/-- Total rank of the distance dict. -/
def sumRank (S : Finset ℚ) (dist : List (ℕ × Option ℚ)) : ℕ :=
  (dist.map (fun kv => rankS S kv.2)).sum

/-- Termination measure of the loop: every iteration strictly decreases it. -/
def phiOf (G : LGraph) (st : DState) : ℕ :=
  st.heap.length + 2 * sumRank (subSums (edgeWeights G)) st.dist

/-- Initial `shortest_distances` / `shortest_paths` / heap of
`Scheduler.dijkstra` (scheduler.py lines 549-555). -/
def initState (G : LGraph) (start : ℕ) : DState :=
  { dist := ainsert (G.locs.map (fun l => (l, (none : Option ℚ)))) start (some 0),
    paths := ainsert (G.locs.map (fun l => (l, ([] : List ℕ)))) start [start],
    heap := [((0 : ℚ), start)] }

/-- Closed-form bound on the termination measure `phiOf` of the initial state
(`phi_init_le_fuel` below): enough fuel for the loop to run to completion on
any graph with nonnegative distances. -/
def dijkstraFuel (G : LGraph) : ℕ :=
  1 + 2 * (G.locs.length * 2 ^ (edgeWeights G).length)

/-- Model of `Scheduler.dijkstra` (scheduler.py lines 540-577). -/
def Scheduler.dijkstra (G : LGraph) (start endL : ℕ) : Except String (List ℕ) :=
  dloopGo G endL (dijkstraFuel G + 1) (initState G start)

theorem prefix_snoc_cases {α : Type} (q p : List α) (y : α) (h : q <+: p ++ [y]) :
    q <+: p ∨ q = p ++ [y] := by
  obtain ⟨s, hs⟩ := h
  rcases List.eq_nil_or_concat s with rfl | ⟨s2, a, rfl⟩
  · right
    rw [← hs, List.append_nil]
  · left
    have h2 : (q ++ s2) ++ [a] = p ++ [y] := by
      rw [← hs, List.concat_eq_append, List.append_assoc]
    have h3 : q ++ s2 = p := by
      have := congrArg List.dropLast h2
      rwa [List.dropLast_concat, List.dropLast_concat] at this
    exact ⟨s2, h3⟩

theorem rankS_lt_of_lt (S : Finset ℚ) (q q2 : ℚ) (hq : q ∈ S) (h : q < q2) :
    rankS S (some q) < rankS S (some q2) := by
  unfold rankS
  apply Finset.card_lt_card
  constructor
  · intro s hs
    rw [Finset.mem_filter] at hs ⊢
    exact ⟨hs.1, lt_trans hs.2 h⟩
  · intro hcon
    have hqmem : q ∈ S.filter (fun s => s < q2) := Finset.mem_filter.mpr ⟨hq, h⟩
    have := hcon hqmem
    rw [Finset.mem_filter] at this
    exact absurd this.2 (lt_irrefl q)

theorem rankS_lt_none (S : Finset ℚ) (q : ℚ) (hq : q ∈ S) :
    rankS S (some q) < rankS S none := by
  unfold rankS
  apply Finset.card_lt_card
  constructor
  · exact Finset.filter_subset _ _
  · intro hcon
    have := hcon hq
    rw [Finset.mem_filter] at this
    exact absurd this.2 (lt_irrefl q)

theorem sumRank_ainsert (S : Finset ℚ) :
    ∀ (dist : List (ℕ × Option ℚ)) (k : ℕ) (oldv newv : Option ℚ),
      alookup dist k = some oldv →
      sumRank S (ainsert dist k newv) + rankS S oldv = sumRank S dist + rankS S newv := by
  intro dist
  induction dist with
  | nil => intro k oldv newv h; simp [alookup] at h
  | cons e rest ih =>
    intro k oldv newv h
    obtain ⟨k2, v2⟩ := e
    unfold alookup at h
    unfold ainsert
    by_cases h2 : k2 = k
    · rw [if_pos h2] at h ⊢
      have hov : v2 = oldv := by injection h
      unfold sumRank
      rw [List.map_cons, List.map_cons, List.sum_cons, List.sum_cons, hov]
      ring
    · rw [if_neg h2] at h ⊢
      unfold sumRank
      rw [List.map_cons, List.map_cons, List.sum_cons, List.sum_cons]
      have hrec := ih k oldv newv h
      unfold sumRank at hrec
      omega

/-- Invariant core of the dijkstra loop state. -/
structure DCore (G : LGraph) (start endL : ℕ) (st : DState) : Prop where
  distKeys : st.dist.map Prod.fst = G.locs
  pathKeys : st.paths.map Prod.fst = G.locs
  distStart : alookup st.dist start = some (some 0)
  pathFacts : ∀ v p, alookup st.paths v = some p → p ≠ [] →
    chainOk G p = true ∧ p.head? = some start ∧ p.getLast? = some v ∧ p.Nodup ∧
    (∀ x ∈ p, x ∈ G.locs) ∧
    ∃ d, alookup st.dist v = some (some d) ∧ chainDist G p = some d
  finPath : ∀ v d, alookup st.dist v = some (some d) →
    ∃ p, alookup st.paths v = some p ∧ p ≠ []
  distVal : ∀ v d, alookup st.dist v = some (some d) →
    0 ≤ d ∧ d ∈ subSums (edgeWeights G)
  prefixLB : ∀ v p, alookup st.paths v = some p → ∀ q x, q ≠ [] → q <+: p →
    q.getLast? = some x →
    ∃ dx dq, alookup st.dist x = some (some dx) ∧ chainDist G q = some dq ∧ dx ≤ dq
  heapFin : ∀ it ∈ st.heap, it.2 ∈ G.locs ∧ ∃ d, alookup st.dist it.2 = some (some d)
  endHeap : ∀ d, alookup st.dist endL = some (some d) → ∃ it ∈ st.heap, it.2 = endL

/-- Closure property away from the node whose neighbors are mid-relaxation:
every other finitely-reached node either still has a heap entry or has had all
its neighbors relaxed to finite distances. -/
def ClosedExcept (G : LGraph) (st : DState) (cur : ℕ) : Prop :=
  ∀ v d, alookup st.dist v = some (some d) → v ≠ cur →
    (∃ it ∈ st.heap, it.2 = v) ∨
    (∀ e ∈ G.nbrs v, ∃ d2, alookup st.dist e.1 = some (some d2))

/-- Closure property at every finitely-reached node. -/
def ClosedAll (G : LGraph) (st : DState) : Prop :=
  ∀ v d, alookup st.dist v = some (some d) →
    (∃ it ∈ st.heap, it.2 = v) ∨
    (∀ e ∈ G.nbrs v, ∃ d2, alookup st.dist e.1 = some (some d2))

theorem mem_heappush_of_mem {α : Type} [Inhabited α] (lt : α → α → Bool)
    (heap : List α) (x it : α) (h : it ∈ heap) : it ∈ heappush lt heap x :=
  (heappush_perm lt heap x).mem_iff.mpr (List.mem_cons_of_mem x h)

theorem self_mem_heappush {α : Type} [Inhabited α] (lt : α → α → Bool)
    (heap : List α) (x : α) : x ∈ heappush lt heap x :=
  (heappush_perm lt heap x).mem_iff.mpr (List.mem_cons_self x heap)

theorem length_heappush {α : Type} [Inhabited α] (lt : α → α → Bool)
    (heap : List α) (x : α) : (heappush lt heap x).length = heap.length + 1 := by
  rw [(heappush_perm lt heap x).length_eq]
  rfl

/-- Effect of one successful relaxation (`new_dist < shortest_distances[neighbor]`):
the invariant core survives, the closure property away from `current` survives,
`current` keeps its distance, distances only decrease, the rank sum strictly
decreases while the heap grows by the pushed entry. -/
theorem relaxOne_spec (G : LGraph) (hG : GraphOk G) (start endL current nb : ℕ)
    (w dc : ℚ) (dnb : Option ℚ) (pcur : List ℕ)
    (hstart : start ∈ G.locs) (hcur : current ∈ G.locs)
    (he : (nb, w) ∈ G.nbrs current)
    (st : DState) (hC : DCore G start endL st) (hX : ClosedExcept G st current)
    (hdc : alookup st.dist current = some (some dc))
    (hdnb : alookup st.dist nb = some dnb)
    (hlt : ltInf (dc + w) dnb = true)
    (hpc : alookup st.paths current = some pcur) (hpcne : pcur ≠ []) :
    DCore G start endL
      { dist := ainsert st.dist nb (some (dc + w)),
        paths := ainsert st.paths nb (pcur ++ [nb]),
        heap := heappush (itemLt G) st.heap (dc + w, nb) }
    ∧ ClosedExcept G
      { dist := ainsert st.dist nb (some (dc + w)),
        paths := ainsert st.paths nb (pcur ++ [nb]),
        heap := heappush (itemLt G) st.heap (dc + w, nb) } current
    ∧ nb ≠ current
    ∧ (∀ v q2, alookup st.dist v = some (some q2) →
        ∃ q1, alookup (ainsert st.dist nb (some (dc + w))) v = some (some q1) ∧ q1 ≤ q2)
    ∧ sumRank (subSums (edgeWeights G)) (ainsert st.dist nb (some (dc + w))) + 1 ≤
        sumRank (subSums (edgeWeights G)) st.dist
    ∧ alookup (ainsert st.dist nb (some (dc + w))) nb = some (some (dc + w)) := by
  have hw0 : 0 ≤ w := hG.nonneg current hcur (nb, w) he
  have hnbloc : nb ∈ G.locs := hG.closed current hcur (nb, w) he
  have hdc0 : 0 ≤ dc := (hC.distVal current dc hdc).1
  -- the relaxation cannot target current or start
  have hnbcur : nb ≠ current := by
    intro hEq
    rw [hEq] at hdnb
    have : dnb = some dc := Option.some.inj (hdnb.symm.trans hdc)
    rw [this] at hlt
    unfold ltInf at hlt
    have : dc + w < dc := of_decide_eq_true hlt
    linarith
  have hnbstart : nb ≠ start := by
    intro hEq
    rw [hEq] at hdnb
    have : dnb = some 0 := Option.some.inj (hdnb.symm.trans hC.distStart)
    rw [this] at hlt
    unfold ltInf at hlt
    have : dc + w < 0 := of_decide_eq_true hlt
    linarith
  -- stored-path facts at current
  obtain ⟨hok, hhead, hlast, hnd, hmems, dpc, hdpc, hcd⟩ :=
    hC.pathFacts current pcur hpc hpcne
  have hdpc2 : dpc = dc :=
    Option.some.inj (Option.some.inj (hdpc.symm.trans hdc))
  rw [hdpc2] at hcd
  have hedge : edgeW G current nb = some w :=
    edgeW_of_mem G current nb w (hG.nbrs_nodup current hcur) he
  -- the new endpoint is fresh: otherwise the prefix lower bound contradicts hlt
  have hnbnotin : nb ∉ pcur := by
    intro hmem2
    obtain ⟨qq, hqne, hqpre, hqlast⟩ := mem_exists_prefix_getLast pcur nb hmem2
    obtain ⟨dx, dq, hdx, hdq, hdxle⟩ :=
      hC.prefixLB current pcur hpc qq nb hqne hqpre hqlast
    obtain ⟨s, hs⟩ := hqpre
    have hqdc : dq ≤ dc := by
      apply chainDist_prefix_le G hG qq s dc dq
      · rw [hs]; exact hok
      · rw [hs]; exact hmems
      · rw [hs]; exact hcd
      · exact hdq
    have hdnb2 : dnb = some dx := Option.some.inj (hdnb.symm.trans hdx)
    rw [hdnb2] at hlt
    unfold ltInf at hlt
    have : dc + w < dx := of_decide_eq_true hlt
    linarith
  -- facts about the extended path
  have hok2 : chainOk G (pcur ++ [nb]) = true := by
    apply chainOk_append_single G pcur current nb hok hlast
    rw [hedge]; rfl
  have hhead2 : (pcur ++ [nb]).head? = some start := by
    rw [List.head?_append_of_ne_nil pcur hpcne]; exact hhead
  have hlast2 : (pcur ++ [nb]).getLast? = some nb := List.getLast?_concat pcur
  have hnd2 : (pcur ++ [nb]).Nodup := by
    apply hnd.append (by simp)
    intro x hx hx2
    rw [List.mem_singleton] at hx2
    exact hnbnotin (hx2 ▸ hx)
  have hmems2 : ∀ x ∈ pcur ++ [nb], x ∈ G.locs := by
    intro x hx
    rcases List.mem_append.mp hx with h | h
    · exact hmems x h
    · rw [List.mem_singleton] at h; exact h ▸ hnbloc
  have hcd2 : chainDist G (pcur ++ [nb]) = some (dc + w) :=
    chainDist_append_single G pcur current nb dc w hlast hedge hcd
  have hS2 : dc + w ∈ subSums (edgeWeights G) :=
    chain_mem_subSums G hG (pcur ++ [nb]) (dc + w) hok2 hnd2 hmems2 hcd2
  have hnbHasKey : ∃ v0, alookup st.dist nb = some v0 := ⟨dnb, hdnb⟩
  have hnbHasPKey : ∃ p0, alookup st.paths nb = some p0 := by
    apply alookup_isSome_of_keys
    rw [hC.pathKeys]
    exact hnbloc
  obtain ⟨pnb0, hpnb0⟩ := hnbHasPKey
  -- distance lookups in the updated dict
  have hdist2_nb : alookup (ainsert st.dist nb (some (dc + w))) nb = some (some (dc + w)) :=
    alookup_ainsert_self st.dist nb (some (dc + w))
  have hdist2_ne : ∀ v, v ≠ nb →
      alookup (ainsert st.dist nb (some (dc + w))) v = alookup st.dist v := by
    intro v hv
    exact alookup_ainsert_ne st.dist nb v (some (dc + w)) (fun h => hv h.symm)
  have hpaths2_nb : alookup (ainsert st.paths nb (pcur ++ [nb])) nb = some (pcur ++ [nb]) :=
    alookup_ainsert_self st.paths nb (pcur ++ [nb])
  have hpaths2_ne : ∀ v, v ≠ nb →
      alookup (ainsert st.paths nb (pcur ++ [nb])) v = alookup st.paths v := by
    intro v hv
    exact alookup_ainsert_ne st.paths nb v (pcur ++ [nb]) (fun h => hv h.symm)
  -- monotone decrease of the distance dict
  have hmono : ∀ v q2, alookup st.dist v = some (some q2) →
      ∃ q1, alookup (ainsert st.dist nb (some (dc + w))) v = some (some q1) ∧ q1 ≤ q2 := by
    intro v q2 hv
    by_cases hveq : v = nb
    · subst hveq
      refine ⟨dc + w, hdist2_nb, ?_⟩
      have hq2 : dnb = some q2 := Option.some.inj (hdnb.symm.trans hv)
      rw [hq2] at hlt
      unfold ltInf at hlt
      exact le_of_lt (of_decide_eq_true hlt)
    · exact ⟨q2, by rw [hdist2_ne v hveq]; exact hv, le_refl q2⟩
  refine ⟨?_, ?_, hnbcur, hmono, ?_, hdist2_nb⟩
  · -- DCore preservation
    refine ⟨?_, ?_, ?_, ?_, ?_, ?_, ?_, ?_, ?_⟩
    · show (ainsert st.dist nb (some (dc + w))).map Prod.fst = G.locs
      rw [ainsert_keys_of_mem st.dist nb _ dnb hdnb]
      exact hC.distKeys
    · show (ainsert st.paths nb (pcur ++ [nb])).map Prod.fst = G.locs
      rw [ainsert_keys_of_mem st.paths nb _ pnb0 hpnb0]
      exact hC.pathKeys
    · show alookup (ainsert st.dist nb (some (dc + w))) start = some (some 0)
      rw [hdist2_ne start (fun h => hnbstart h.symm)]
      exact hC.distStart
    · -- pathFacts
      intro v p hp hpne
      by_cases hveq : v = nb
      · subst hveq
        have hp2 : p = pcur ++ [v] := Option.some.inj (hp.symm.trans hpaths2_nb)
        subst hp2
        exact ⟨hok2, hhead2, hlast2, hnd2, hmems2, dc + w, hdist2_nb, hcd2⟩
      · rw [hpaths2_ne v hveq] at hp
        obtain ⟨h1, h2, h3, h4, h5, d0, hd0, hcd0⟩ := hC.pathFacts v p hp hpne
        refine ⟨h1, h2, h3, h4, h5, d0, ?_, hcd0⟩
        rw [hdist2_ne v hveq]
        exact hd0
    · -- finPath
      intro v d hv
      by_cases hveq : v = nb
      · subst hveq
        exact ⟨pcur ++ [v], hpaths2_nb, by simp⟩
      · rw [hdist2_ne v hveq] at hv
        obtain ⟨p, hp, hpne⟩ := hC.finPath v d hv
        exact ⟨p, by rw [hpaths2_ne v hveq]; exact hp, hpne⟩
    · -- distVal
      intro v d hv
      by_cases hveq : v = nb
      · subst hveq
        have hd2 : d = dc + w :=
          Option.some.inj (Option.some.inj (hv.symm.trans hdist2_nb))
        subst hd2
        exact ⟨by linarith, hS2⟩
      · rw [hdist2_ne v hveq] at hv
        exact hC.distVal v d hv
    · -- prefixLB
      intro v p hp q x hqne hqpre hqlast
      by_cases hveq : v = nb
      · subst hveq
        have hp2 : p = pcur ++ [v] := Option.some.inj (hp.symm.trans hpaths2_nb)
        subst hp2
        rcases prefix_snoc_cases q pcur v hqpre with hcase | hcase
        · obtain ⟨dx, dq, hdx, hdq, hdxle⟩ :=
            hC.prefixLB current pcur hpc q x hqne hcase hqlast
          obtain ⟨dx2, hdx2, hdxle2⟩ := hmono x dx hdx
          exact ⟨dx2, dq, hdx2, hdq, le_trans hdxle2 hdxle⟩
        · subst hcase
          have hx : x = v := Option.some.inj (hqlast.symm.trans hlast2)
          subst hx
          exact ⟨dc + w, dc + w, hdist2_nb, hcd2, le_refl _⟩
      · rw [hpaths2_ne v hveq] at hp
        obtain ⟨dx, dq, hdx, hdq, hdxle⟩ := hC.prefixLB v p hp q x hqne hqpre hqlast
        obtain ⟨dx2, hdx2, hdxle2⟩ := hmono x dx hdx
        exact ⟨dx2, dq, hdx2, hdq, le_trans hdxle2 hdxle⟩
    · -- heapFin
      intro it hit
      rcases List.mem_cons.mp
          ((heappush_perm (itemLt G) st.heap (dc + w, nb)).mem_iff.mp hit) with h | h
      · subst h
        exact ⟨hnbloc, dc + w, hdist2_nb⟩
      · obtain ⟨hloc, d0, hd0⟩ := hC.heapFin it h
        refine ⟨hloc, ?_⟩
        by_cases hit2 : it.2 = nb
        · exact ⟨dc + w, by rw [hit2]; exact hdist2_nb⟩
        · exact ⟨d0, by rw [hdist2_ne it.2 hit2]; exact hd0⟩
    · -- endHeap
      intro d hd
      by_cases hend : endL = nb
      · refine ⟨(dc + w, nb), self_mem_heappush _ _ _, hend.symm⟩
      · rw [hdist2_ne endL hend] at hd
        obtain ⟨it, hit, hit2⟩ := hC.endHeap d hd
        exact ⟨it, mem_heappush_of_mem _ _ _ _ hit, hit2⟩
  · -- ClosedExcept
    intro v d hv hvcur
    by_cases hveq : v = nb
    · subst hveq
      exact Or.inl ⟨(dc + w, v), self_mem_heappush _ _ _, rfl⟩
    · rw [hdist2_ne v hveq] at hv
      rcases hX v d hv hvcur with ⟨it, hit, hit2⟩ | hall
      · exact Or.inl ⟨it, mem_heappush_of_mem _ _ _ _ hit, hit2⟩
      · right
        intro e hE
        obtain ⟨d2, hd2⟩ := hall e hE
        by_cases he2 : e.1 = nb
        · exact ⟨dc + w, by rw [he2]; exact hdist2_nb⟩
        · exact ⟨d2, by rw [hdist2_ne e.1 he2]; exact hd2⟩
  · -- rank sum decrease
    have hsum := sumRank_ainsert (subSums (edgeWeights G)) st.dist nb dnb
      (some (dc + w)) hdnb
    have hlt2 : rankS (subSums (edgeWeights G)) (some (dc + w)) <
        rankS (subSums (edgeWeights G)) dnb := by
      cases dnb with
      | none => exact rankS_lt_none _ _ hS2
      | some q2 =>
        apply rankS_lt_of_lt _ _ _ hS2
        unfold ltInf at hlt
        exact of_decide_eq_true hlt
    omega

/-- Running the relaxation loop over any sublist of `current`'s neighbor list
preserves the invariant core, keeps `current`'s distance, only decreases
distances, pays for every heap push with a rank decrease, and leaves every
relaxed neighbor with a finite distance at most `dc + w`. -/
theorem relaxGo_spec (G : LGraph) (hG : GraphOk G) (start endL current : ℕ)
    (hstart : start ∈ G.locs) (hcur : current ∈ G.locs) (dc : ℚ) :
    ∀ (nbl : List (ℕ × ℚ)) (st : DState),
      DCore G start endL st →
      ClosedExcept G st current →
      alookup st.dist current = some (some dc) →
      (∀ e ∈ nbl, e ∈ G.nbrs current) →
      ∃ st2, relaxGo G current nbl st = Except.ok st2
        ∧ DCore G start endL st2
        ∧ ClosedExcept G st2 current
        ∧ alookup st2.dist current = some (some dc)
        ∧ (∀ v q2, alookup st.dist v = some (some q2) →
            ∃ q1, alookup st2.dist v = some (some q1) ∧ q1 ≤ q2)
        ∧ 2 * sumRank (subSums (edgeWeights G)) st2.dist + st2.heap.length ≤
            2 * sumRank (subSums (edgeWeights G)) st.dist + st.heap.length
        ∧ (∀ e ∈ nbl, ∃ d2, alookup st2.dist e.1 = some (some d2) ∧ d2 ≤ dc + e.2)
        ∧ (∀ it ∈ st.heap, it ∈ st2.heap) := by
  intro nbl
  induction nbl with
  | nil =>
    intro st hC hX hdc _
    refine ⟨st, rfl, hC, hX, hdc, ?_, le_refl _, ?_, fun it h => h⟩
    · intro v q2 hv
      exact ⟨q2, hv, le_refl q2⟩
    · intro e hE
      exact absurd hE (List.not_mem_nil e)
  | cons e rest ih =>
    intro st hC hX hdc hnbl
    obtain ⟨nb, w⟩ := e
    have he : (nb, w) ∈ G.nbrs current := hnbl (nb, w) (List.mem_cons_self _ _)
    have hrest : ∀ e ∈ rest, e ∈ G.nbrs current :=
      fun e hE => hnbl e (List.mem_cons_of_mem _ hE)
    have hnbloc : nb ∈ G.locs := hG.closed current hcur (nb, w) he
    obtain ⟨dnb, hdnb⟩ : ∃ v0, alookup st.dist nb = some v0 := by
      apply alookup_isSome_of_keys
      rw [hC.distKeys]
      exact hnbloc
    by_cases hlt : ltInf (dc + w) dnb = true
    · -- relaxation fires
      obtain ⟨pcur, hpc, hpcne⟩ := hC.finPath current dc hdc
      have hstep : relaxGo G current ((nb, w) :: rest) st = relaxGo G current rest
          { dist := ainsert st.dist nb (some (dc + w)),
            paths := ainsert st.paths nb (pcur ++ [nb]),
            heap := heappush (itemLt G) st.heap (dc + w, nb) } := by
        conv_lhs => unfold relaxGo
        rw [hdc, hdnb]
        dsimp only
        rw [if_pos hlt, hpc]
      obtain ⟨hC', hX', hnbcur, hmono', hsum', hdist'⟩ :=
        relaxOne_spec G hG start endL current nb w dc dnb pcur hstart hcur he st
          hC hX hdc hdnb hlt hpc hpcne
      have hdc' : alookup (ainsert st.dist nb (some (dc + w))) current =
          some (some dc) := by
        rw [alookup_ainsert_ne st.dist nb current (some (dc + w)) hnbcur]
        exact hdc
      obtain ⟨st2, hrun, hC2, hX2, hdc2, hmono2, hcost2, hnbr2, hgrow2⟩ :=
        ih { dist := ainsert st.dist nb (some (dc + w)),
             paths := ainsert st.paths nb (pcur ++ [nb]),
             heap := heappush (itemLt G) st.heap (dc + w, nb) } hC' hX' hdc' hrest
      refine ⟨st2, by rw [hstep]; exact hrun, hC2, hX2, hdc2, ?_, ?_, ?_, ?_⟩
      · intro v q2 hv
        obtain ⟨q1, hq1, hle1⟩ := hmono' v q2 hv
        obtain ⟨q0, hq0, hle0⟩ := hmono2 v q1 hq1
        exact ⟨q0, hq0, le_trans hle0 hle1⟩
      · have hlen : (heappush (itemLt G) st.heap (dc + w, nb)).length =
            st.heap.length + 1 := length_heappush _ _ _
        dsimp only at hcost2
        omega
      · intro e hE
        rcases List.mem_cons.mp hE with hE1 | hE2
        · subst hE1
          obtain ⟨q1, hq1, hle1⟩ := hmono2 nb (dc + w) hdist'
          exact ⟨q1, hq1, hle1⟩
        · exact hnbr2 e hE2
      · intro it hit
        exact hgrow2 it (mem_heappush_of_mem _ _ _ _ hit)
    · -- no relaxation: strictly smaller candidate not found
      have hstep : relaxGo G current ((nb, w) :: rest) st =
          relaxGo G current rest st := by
        conv_lhs => unfold relaxGo
        rw [hdc, hdnb]
        dsimp only
        rw [if_neg hlt]
      obtain ⟨st2, hrun, hC2, hX2, hdc2, hmono2, hcost2, hnbr2, hgrow2⟩ :=
        ih st hC hX hdc hrest
      refine ⟨st2, by rw [hstep]; exact hrun, hC2, hX2, hdc2, hmono2, hcost2, ?_, hgrow2⟩
      intro e hE
      rcases List.mem_cons.mp hE with hE1 | hE2
      · subst hE1
        cases dnb with
        | none => exact absurd rfl hlt
        | some q2 =>
          have hge : q2 ≤ dc + w := by
            unfold ltInf at hlt
            have := of_decide_eq_false (Bool.of_not_eq_true hlt)
            linarith [not_lt.mp this]
          obtain ⟨q1, hq1, hle1⟩ := hmono2 nb q2 hdnb
          exact ⟨q1, hq1, le_trans hle1 hge⟩
      · exact hnbr2 e hE2

theorem dloopGo_succ (G : LGraph) (endL : ℕ) (fuel : ℕ) (st : DState) :
    dloopGo G endL (fuel + 1) st =
      match heappop (itemLt G) st.heap with
      | none =>
        match alookup st.paths endL with
        | none => Except.ok []
        | some p => Except.ok p
      | some (cur, heap2) =>
        if cur.2 = endL then
          match alookup st.paths endL with
          | none => Except.error "KeyError: shortest_paths[end]"
          | some p => Except.ok (p ++ [endL])
        else
          match relaxGo G cur.2 (G.nbrs cur.2) { st with heap := heap2 } with
          | Except.error e => Except.error e
          | Except.ok st2 => dloopGo G endL fuel st2 := rfl

theorem alookup_map_const_eq {α : Type} :
    ∀ (locs : List ℕ) (c : α) (k : ℕ) (v : α),
      alookup (locs.map (fun l => (l, c))) k = some v → v = c := by
  intro locs c k v h
  induction locs with
  | nil => simp [alookup] at h
  | cons a rest ih =>
    rw [List.map_cons] at h
    unfold alookup at h
    by_cases h2 : a = k
    · rw [if_pos h2] at h
      exact (Option.some.inj h).symm
    · rw [if_neg h2] at h
      exact ih h

/-- When every finitely-reached node has all neighbors finitely reached,
finiteness propagates to the end of any linked chain. -/
theorem chain_stays_fin (G : LGraph) (st : DState)
    (hclosed : ∀ v d, alookup st.dist v = some (some d) →
      ∀ e ∈ G.nbrs v, ∃ d2, alookup st.dist e.1 = some (some d2)) :
    ∀ (p : List ℕ) (a b : ℕ), chainOk G p = true → p.head? = some a →
      p.getLast? = some b → (∃ d, alookup st.dist a = some (some d)) →
      ∃ d, alookup st.dist b = some (some d) := by
  intro p
  induction p with
  | nil => intro a b _ hhead _ _; simp at hhead
  | cons x rest ih =>
    intro a b hok hhead hlast hfin
    have hxa : x = a := by simpa using hhead
    subst hxa
    cases rest with
    | nil =>
      have hab : x = b := by simpa using hlast
      subst hab
      exact hfin
    | cons y rest2 =>
      unfold chainOk at hok
      rw [Bool.and_eq_true] at hok
      obtain ⟨w, hw⟩ := Option.isSome_iff_exists.mp hok.1
      obtain ⟨e, he, he1, _⟩ := edgeW_mem_of_some G x y w hw
      obtain ⟨d, hd⟩ := hfin
      obtain ⟨d2, hd2⟩ := hclosed x d hd e he
      rw [he1] at hd2
      apply ih y b hok.2 rfl
      · rw [← hlast]
        exact (List.getLast?_cons_cons ..).symm
      · exact ⟨d2, hd2⟩

theorem initState_dist_start (G : LGraph) (start : ℕ) :
    alookup (initState G start).dist start = some (some 0) :=
  alookup_ainsert_self _ _ _

theorem initState_dist_ne (G : LGraph) (start v : ℕ) (hv : v ≠ start)
    (d : ℚ) : alookup (initState G start).dist v ≠ some (some d) := by
  intro h
  unfold initState at h
  dsimp only at h
  rw [alookup_ainsert_ne _ start v _ (fun h2 => hv h2.symm)] at h
  have := alookup_map_const_eq G.locs (none : Option ℚ) v (some d) h
  exact Option.noConfusion this

theorem initState_fin_start (G : LGraph) (start v : ℕ) (d : ℚ)
    (h : alookup (initState G start).dist v = some (some d)) :
    v = start ∧ d = 0 := by
  by_cases hv : v = start
  · subst hv
    rw [initState_dist_start] at h
    have := Option.some.inj (Option.some.inj h)
    exact ⟨rfl, this.symm⟩
  · exact absurd h (initState_dist_ne G start v hv d)

theorem keys_map_const {α : Type} :
    ∀ (locs : List ℕ) (c : α), (locs.map (fun l => (l, c))).map Prod.fst = locs
  | [], _ => rfl
  | a :: rest, c => by
    show a :: ((rest.map (fun l => (l, c))).map Prod.fst) = a :: rest
    rw [keys_map_const rest c]

theorem DCore_initState (G : LGraph) (hG : GraphOk G) (start endL : ℕ)
    (hstart : start ∈ G.locs) : DCore G start endL (initState G start) := by
  have hpaths_ne : ∀ v, v ≠ start → ∀ p,
      alookup (initState G start).paths v = some p → p = [] := by
    intro v hv p hp
    unfold initState at hp
    dsimp only at hp
    rw [alookup_ainsert_ne _ start v _ (fun h2 => hv h2.symm)] at hp
    exact alookup_map_const_eq G.locs [] v p hp
  have hpaths_start : alookup (initState G start).paths start = some [start] :=
    alookup_ainsert_self _ _ _
  refine ⟨?_, ?_, initState_dist_start G start, ?_, ?_, ?_, ?_, ?_, ?_⟩
  · show ((ainsert (G.locs.map (fun l => (l, (none : Option ℚ)))) start
      (some 0)).map Prod.fst) = G.locs
    rw [ainsert_keys_of_mem _ start _ none (alookup_map_const G.locs none start hstart)]
    exact keys_map_const G.locs none
  · show ((ainsert (G.locs.map (fun l => (l, ([] : List ℕ)))) start
      [start]).map Prod.fst) = G.locs
    rw [ainsert_keys_of_mem _ start _ [] (alookup_map_const G.locs [] start hstart)]
    exact keys_map_const G.locs []
  · -- pathFacts
    intro v p hp hpne
    by_cases hv : v = start
    · rw [hv] at hp ⊢
      rw [hpaths_start] at hp
      have hp2 : p = [start] := Option.some.inj hp.symm
      subst hp2
      refine ⟨rfl, rfl, rfl, by simp, ?_, 0, initState_dist_start G start, rfl⟩
      intro x hx
      rw [List.mem_singleton] at hx
      exact hx ▸ hstart
    · exact absurd (hpaths_ne v hv p hp) hpne
  · -- finPath
    intro v d hv
    obtain ⟨hv2, _⟩ := initState_fin_start G start v d hv
    rw [hv2]
    exact ⟨[start], hpaths_start, by simp⟩
  · -- distVal
    intro v d hv
    obtain ⟨_, hd⟩ := initState_fin_start G start v d hv
    subst hd
    exact ⟨le_refl 0, zero_mem_subSums (edgeWeights G)⟩
  · -- prefixLB
    intro v p hp q x hqne hqpre hqlast
    by_cases hv : v = start
    · rw [hv] at hp
      rw [hpaths_start] at hp
      have hp2 : p = [start] := Option.some.inj hp.symm
      subst hp2
      obtain ⟨s, hs⟩ := hqpre
      cases q with
      | nil => exact absurd rfl hqne
      | cons a t =>
        rw [List.cons_append] at hs
        have ha : a = start := (List.cons.inj hs).1
        have hts : t ++ s = [] := (List.cons.inj hs).2
        have ht : t = [] := List.append_eq_nil.mp hts |>.1
        subst ht
        have hx : a = x := by simpa using hqlast
        rw [← hx, ha]
        exact ⟨0, 0, initState_dist_start G start, rfl, le_refl 0⟩
    · have := hpaths_ne v hv p hp
      subst this
      have := List.prefix_nil.mp hqpre
      exact absurd this hqne
  · -- heapFin
    intro it hit
    have h1 : it = ((0 : ℚ), start) := by
      have : (initState G start).heap = [((0 : ℚ), start)] := rfl
      rw [this] at hit
      exact List.mem_singleton.mp hit
    subst h1
    exact ⟨hstart, 0, initState_dist_start G start⟩
  · -- endHeap
    intro d hd
    obtain ⟨hv2, _⟩ := initState_fin_start G start endL d hd
    refine ⟨((0 : ℚ), start), ?_, hv2.symm⟩
    show ((0 : ℚ), start) ∈ [((0 : ℚ), start)]
    exact List.mem_singleton.mpr rfl

theorem ClosedAll_initState (G : LGraph) (start : ℕ) :
    ClosedAll G (initState G start) := by
  intro v d hv
  obtain ⟨hv2, _⟩ := initState_fin_start G start v d hv
  left
  exact ⟨((0 : ℚ), start), List.mem_singleton.mpr rfl, hv2.symm⟩

theorem subSums_card_le : ∀ ws : List ℚ, (subSums ws).card ≤ 2 ^ ws.length := by
  intro ws
  induction ws with
  | nil => simp [subSums]
  | cons w ws ih =>
    unfold subSums
    have h1 := Finset.card_union_le (subSums ws) ((subSums ws).image (fun x => w + x))
    have h2 : ((subSums ws).image (fun x => w + x)).card ≤ (subSums ws).card :=
      Finset.card_image_le
    have h3 : (2 : ℕ) ^ (w :: ws).length = 2 ^ ws.length + 2 ^ ws.length := by
      rw [List.length_cons, pow_succ]
      ring
    omega

theorem rankS_le_card (S : Finset ℚ) (q : Option ℚ) : rankS S q ≤ S.card := by
  cases q with
  | none => exact le_refl _
  | some v =>
    unfold rankS
    exact Finset.card_filter_le _ _

theorem sumRank_le (S : Finset ℚ) :
    ∀ dist : List (ℕ × Option ℚ), sumRank S dist ≤ dist.length * S.card := by
  intro dist
  induction dist with
  | nil => simp [sumRank]
  | cons e rest ih =>
    unfold sumRank at ih ⊢
    rw [List.map_cons, List.sum_cons, List.length_cons]
    have h1 := rankS_le_card S e.2
    have h2 : (rest.length + 1) * S.card = rest.length * S.card + S.card := by ring
    omega

theorem ainsert_length_of_mem {α : Type} (l : List (ℕ × α)) (k : ℕ) (v w : α)
    (h : alookup l k = some w) : (ainsert l k v).length = l.length := by
  induction l with
  | nil => simp [alookup] at h
  | cons e rest ih =>
    obtain ⟨k2, u⟩ := e
    unfold alookup at h
    unfold ainsert
    by_cases h2 : k2 = k
    · rw [if_pos h2]
      rfl
    · rw [if_neg h2] at h ⊢
      rw [List.length_cons, List.length_cons, ih h]

theorem initState_dist_length (G : LGraph) (start : ℕ) (hstart : start ∈ G.locs) :
    (initState G start).dist.length = G.locs.length := by
  unfold initState
  dsimp only
  rw [ainsert_length_of_mem _ start _ none (alookup_map_const G.locs none start hstart)]
  exact List.length_map _ _

/-- The fuel the wrapper hands the loop covers the initial measure. -/
theorem phi_init_le_fuel (G : LGraph) (start : ℕ) (hstart : start ∈ G.locs) :
    phiOf G (initState G start) ≤ dijkstraFuel G := by
  unfold phiOf dijkstraFuel
  have h1 : (initState G start).heap.length = 1 := rfl
  have h2 := sumRank_le (subSums (edgeWeights G)) (initState G start).dist
  have h3 := subSums_card_le (edgeWeights G)
  have h4 := initState_dist_length G start hstart
  have h5 : (initState G start).dist.length * (subSums (edgeWeights G)).card ≤
      G.locs.length * 2 ^ (edgeWeights G).length := by
    rw [h4]
    exact Nat.mul_le_mul_left _ h3
  omega

/-- Running the `while heap:` loop from any state satisfying the invariant
returns without error given fuel above the measure, and the result is either
`[]` with the end unreachable, or the stored simple path to the end (with the
end repeated by `shortest_paths[end] + [end]`) whose distance is at most any
distance the end already had. -/
theorem dloopGo_spec (G : LGraph) (hG : GraphOk G) (start endL : ℕ)
    (hstart : start ∈ G.locs) (hend : endL ∈ G.locs) :
    ∀ (fuel : ℕ) (st : DState), DCore G start endL st → ClosedAll G st →
      phiOf G st < fuel →
      ∃ res, dloopGo G endL fuel st = Except.ok res ∧
        ((res = [] ∧ ¬ Reach G start endL) ∨
         (∃ p D, res = p ++ [endL] ∧ chainOk G p = true ∧ p.head? = some start ∧
           p.getLast? = some endL ∧ chainDist G p = some D ∧ 0 ≤ D ∧
           (∀ q0, alookup st.dist endL = some (some q0) → D ≤ q0))) := by
  intro fuel
  induction fuel with
  | zero => intro st _ _ hphi; exact absurd hphi (Nat.not_lt_zero _)
  | succ fuel ih =>
    intro st hC hA hphi
    by_cases hheap : st.heap = []
    · -- heap exhausted: the stored path at the end is empty and the end unreachable
      have hpop0 : heappop (itemLt G) st.heap = none := by rw [hheap]; rfl
      obtain ⟨p0, hp0⟩ : ∃ p0, alookup st.paths endL = some p0 := by
        apply alookup_isSome_of_keys; rw [hC.pathKeys]; exact hend
      have hp0nil : p0 = [] := by
        by_contra hpne
        obtain ⟨_, _, _, _, _, d, hd, _⟩ := hC.pathFacts endL p0 hp0 hpne
        obtain ⟨it, hit, _⟩ := hC.endHeap d hd
        rw [hheap] at hit
        exact absurd hit (List.not_mem_nil it)
      subst hp0nil
      refine ⟨[], ?_, Or.inl ⟨rfl, ?_⟩⟩
      · rw [dloopGo_succ, hpop0]
        dsimp only
        rw [hp0]
      · rintro ⟨c, hcok, hchead, hclast⟩
        have hclosed : ∀ v d, alookup st.dist v = some (some d) →
            ∀ e ∈ G.nbrs v, ∃ d2, alookup st.dist e.1 = some (some d2) := by
          intro v d hv e hE
          rcases hA v d hv with ⟨it, hit, _⟩ | hall
          · rw [hheap] at hit; exact absurd hit (List.not_mem_nil it)
          · exact hall e hE
        obtain ⟨d, hd⟩ := chain_stays_fin G st hclosed c start endL hcok hchead hclast
          ⟨0, hC.distStart⟩
        obtain ⟨it, hit, _⟩ := hC.endHeap d hd
        rw [hheap] at hit
        exact absurd hit (List.not_mem_nil it)
    · -- pop the head item
      obtain ⟨h0, t, hht⟩ := List.exists_cons_of_ne_nil hheap
      obtain ⟨rest, hpop, hperm⟩ := heappop_spec (itemLt G) st.heap hheap
      have hcurmem : st.heap.getD 0 default ∈ st.heap := by
        rw [hht]; exact List.mem_cons_self _ _
      obtain ⟨hculoc, dcur, hdcur⟩ := hC.heapFin _ hcurmem
      have hh0 : st.heap.getD 0 default = h0 := by rw [hht]; rfl
      by_cases hEq : (st.heap.getD 0 default).2 = endL
      · -- reached the end: return the stored path plus the end location
        obtain ⟨p, hp, hpne⟩ := hC.finPath endL dcur (by rw [← hEq]; exact hdcur)
        obtain ⟨hok, hhead, hlast, hnd, hmems, D, hD, hcd⟩ := hC.pathFacts endL p hp hpne
        refine ⟨p ++ [endL], ?_, Or.inr ⟨p, D, rfl, hok, hhead, hlast, hcd,
          (hC.distVal endL D hD).1, ?_⟩⟩
        · rw [dloopGo_succ, hpop]
          dsimp only
          rw [if_pos hEq, hp]
        · intro q0 hq0
          exact le_of_eq (Option.some.inj (Option.some.inj (hD.symm.trans hq0)))
      · -- relax the popped location's neighbors and continue with less fuel
        have hCmid : DCore G start endL { st with heap := rest } := by
          refine ⟨hC.distKeys, hC.pathKeys, hC.distStart, hC.pathFacts, hC.finPath,
            hC.distVal, hC.prefixLB, ?_, ?_⟩
          · intro it hit
            exact hC.heapFin it (List.mem_of_mem_tail (hperm.mem_iff.mp hit))
          · intro d hd
            obtain ⟨it, hit, hit2⟩ := hC.endHeap d hd
            have hit' : it ∈ h0 :: t := by rw [← hht]; exact hit
            rcases List.mem_cons.mp hit' with h | h
            · exfalso
              apply hEq
              rw [hh0, ← h]
              exact hit2
            · refine ⟨it, ?_, hit2⟩
              apply hperm.mem_iff.mpr
              rw [hht]
              exact h
        have hXmid : ClosedExcept G { st with heap := rest }
            (st.heap.getD 0 default).2 := by
          intro v d hv hvne
          rcases hA v d hv with ⟨it, hit, hit2⟩ | hall
          · left
            have hit' : it ∈ h0 :: t := by rw [← hht]; exact hit
            rcases List.mem_cons.mp hit' with h | h
            · exfalso
              apply hvne
              rw [← hit2, h, ← hh0]
            · refine ⟨it, ?_, hit2⟩
              apply hperm.mem_iff.mpr
              rw [hht]
              exact h
          · exact Or.inr hall
        obtain ⟨st2, hrun, hC2, hX2, hdc2, hmono2, hcost2, hnbr2, hgrow2⟩ :=
          relaxGo_spec G hG start endL (st.heap.getD 0 default).2 hstart hculoc dcur
            (G.nbrs (st.heap.getD 0 default).2) { st with heap := rest }
            hCmid hXmid hdcur (fun e hE => hE)
        have hA2 : ClosedAll G st2 := by
          intro v d hv
          by_cases hvc : v = (st.heap.getD 0 default).2
          · right
            intro e hE
            obtain ⟨d2, hd2, _⟩ := hnbr2 e (by rw [hvc] at hE; exact hE)
            exact ⟨d2, hd2⟩
          · exact hX2 v d hv hvc
        have hphi2 : phiOf G st2 < fuel := by
          have hlen : rest.length = t.length := by
            rw [hperm.length_eq, hht]
            rfl
          have hlen2 : st.heap.length = t.length + 1 := by rw [hht]; rfl
          unfold phiOf at hphi ⊢
          dsimp only at hcost2
          omega
        obtain ⟨res, hres, hpost⟩ := ih st2 hC2 hA2 hphi2
        refine ⟨res, ?_, ?_⟩
        · rw [dloopGo_succ, hpop]
          dsimp only
          rw [if_neg hEq, hrun]
          exact hres
        · rcases hpost with ⟨h1, h2⟩ | ⟨p, D, h1, h2, h3, h4, h5, h6, h7⟩
          · exact Or.inl ⟨h1, h2⟩
          · refine Or.inr ⟨p, D, h1, h2, h3, h4, h5, h6, ?_⟩
            intro q0 hq0
            obtain ⟨q1, hq1, hle⟩ := hmono2 endL q0 hq0
            exact le_trans (h7 q1 hq1) hle

/-- C4: On a well-formed location graph (distinct nodes `start ≠ endL`, both in
the location set, with the zero self-distance entry the CSV diagonal gives the
end location), `Scheduler.dijkstra` returns without raising: an empty list when
the end is unreachable from the start, and otherwise a path that begins at
`start` and ends at `endL` whose total edge distance is at most the direct edge
distance whenever a direct edge exists, with equality when no linked chain from
`start` to `endL` is shorter than the direct edge. -/
theorem C4_dijkstra (G : LGraph) (hG : GraphOk G) (start endL : ℕ)
    (hstart : start ∈ G.locs) (hend : endL ∈ G.locs) (hne : start ≠ endL)
    (hself : edgeW G endL endL = some 0) :
    ∃ res, Scheduler.dijkstra G start endL = Except.ok res ∧
      (¬ Reach G start endL → res = []) ∧
      (Reach G start endL →
        res.head? = some start ∧ res.getLast? = some endL ∧
        ∃ D, chainDist G res = some D ∧
          ∀ w, edgeW G start endL = some w →
            D ≤ w ∧
            ((∀ q dq, chainOk G q = true → q.head? = some start →
                q.getLast? = some endL → chainDist G q = some dq → w ≤ dq) →
              D = w)) := by
  have hpop : heappop (itemLt G) (initState G start).heap =
      some (((0 : ℚ), start), ([] : List (ℚ × ℕ))) := rfl
  have hinit := DCore_initState G hG start endL hstart
  have hCmid : DCore G start endL
      { initState G start with heap := ([] : List (ℚ × ℕ)) } := by
    refine ⟨hinit.distKeys, hinit.pathKeys, hinit.distStart, hinit.pathFacts,
      hinit.finPath, hinit.distVal, hinit.prefixLB, ?_, ?_⟩
    · intro it hit
      exact absurd hit (List.not_mem_nil it)
    · intro d hd
      obtain ⟨hv2, _⟩ := initState_fin_start G start endL d hd
      exact absurd hv2.symm hne
  have hXmid : ClosedExcept G
      { initState G start with heap := ([] : List (ℚ × ℕ)) } start := by
    intro v d hv hvne
    obtain ⟨hv2, _⟩ := initState_fin_start G start v d hv
    exact absurd hv2 hvne
  obtain ⟨st2, hrun, hC2, hX2, hdc2, hmono2, hcost2, hnbr2, hgrow2⟩ :=
    relaxGo_spec G hG start endL start hstart hstart 0 (G.nbrs start)
      { initState G start with heap := ([] : List (ℚ × ℕ)) }
      hCmid hXmid (initState_dist_start G start) (fun e hE => hE)
  have hA2 : ClosedAll G st2 := by
    intro v d hv
    by_cases hvc : v = start
    · right
      intro e hE
      obtain ⟨d2, hd2, _⟩ := hnbr2 e (by rw [hvc] at hE; exact hE)
      exact ⟨d2, hd2⟩
    · exact hX2 v d hv hvc
  have hphi2 : phiOf G st2 < phiOf G (initState G start) := by
    have h1len : (initState G start).heap.length = 1 := rfl
    unfold phiOf
    dsimp only at hcost2
    have h0len : ([] : List (ℚ × ℕ)).length = 0 := rfl
    omega
  obtain ⟨res, hres, hpost⟩ := dloopGo_spec G hG start endL hstart hend
    (dijkstraFuel G) st2 hC2 hA2
    (lt_of_lt_of_le hphi2 (phi_init_le_fuel G start hstart))
  have hstep : Scheduler.dijkstra G start endL = Except.ok res := by
    unfold Scheduler.dijkstra
    rw [dloopGo_succ, hpop]
    dsimp only
    rw [if_neg hne, hrun]
    exact hres
  refine ⟨res, hstep, ?_, ?_⟩
  · intro hnr
    rcases hpost with ⟨h1, _⟩ | ⟨p, D, h1, hok, hhead, hlast, hcd, hD0, hq0le⟩
    · exact h1
    · exact absurd ⟨p, hok, hhead, hlast⟩ hnr
  · intro hr
    rcases hpost with ⟨_, h2⟩ | ⟨p, D, h1, hok, hhead, hlast, hcd, hD0, hq0le⟩
    · exact absurd hr h2
    · have hpne : p ≠ [] := by
        intro h
        rw [h] at hhead
        simp at hhead
      subst h1
      refine ⟨?_, List.getLast?_concat p, ?_⟩
      · rw [List.head?_append_of_ne_nil p hpne]
        exact hhead
      · have hcdres : chainDist G (p ++ [endL]) = some (D + 0) :=
          chainDist_append_single G p endL endL D 0 hlast hself hcd
      -- the appended duplicate end contributes the zero self-distance
        rw [add_zero] at hcdres
        refine ⟨D, hcdres, ?_⟩
        intro w hw
        obtain ⟨e, he, he1, he2⟩ := edgeW_mem_of_some G start endL w hw
        obtain ⟨d2, hd2, hd2le⟩ := hnbr2 e he
        rw [he1] at hd2
        rw [he2] at hd2le
        have hDw : D ≤ w := by
          have := hq0le d2 hd2
          linarith
        refine ⟨hDw, ?_⟩
        intro hmin
        exact le_antisymm hDw (hmin p D hok hhead hlast hcd)

/-- A two-location graph (hub and one stop, symmetric distance 5, with the
CSV diagonal's zero self-distances) to exercise `Scheduler.dijkstra`. -/
def gC4 : LGraph :=
  { locs := [0, 1],
    nbrs := fun l =>
      if l = 0 then [(0, 0), (1, 5)] else if l = 1 then [(0, 5), (1, 0)] else [],
    nm := fun _ => "" }

theorem gC4_ok : GraphOk gC4 := by
  constructor
  · decide
  · intro l hl
    have h2 : l = 0 ∨ l = 1 := by simpa [gC4] using hl
    rcases h2 with rfl | rfl <;> decide
  · intro l hl
    have h2 : l = 0 ∨ l = 1 := by simpa [gC4] using hl
    rcases h2 with rfl | rfl <;> decide
  · intro l hl
    have h2 : l = 0 ∨ l = 1 := by simpa [gC4] using hl
    rcases h2 with rfl | rfl <;> decide

/-- Witness for C4 on the concrete two-location graph. -/
theorem C4_dijkstra_witness :
    GraphOk gC4 ∧ (0 : ℕ) ∈ gC4.locs ∧ (1 : ℕ) ∈ gC4.locs ∧ (0 : ℕ) ≠ 1 ∧
    edgeW gC4 1 1 = some 0 ∧
    (∃ res, Scheduler.dijkstra gC4 0 1 = Except.ok res ∧
      (¬ Reach gC4 0 1 → res = []) ∧
      (Reach gC4 0 1 →
        res.head? = some 0 ∧ res.getLast? = some 1 ∧
        ∃ D, chainDist gC4 res = some D ∧
          ∀ w, edgeW gC4 0 1 = some w →
            D ≤ w ∧
            ((∀ q dq, chainOk gC4 q = true → q.head? = some 0 →
                q.getLast? = some 1 → chainDist gC4 q = some dq → w ≤ dq) →
              D = w))) :=
  ⟨gC4_ok, by decide, by decide, by decide, by decide,
    C4_dijkstra gC4 gC4_ok 0 1 (by decide) (by decide) (by decide) (by decide)⟩

/-!
Scheduler embedding (scheduler.py).  Python shares one `Package` object per id
between the package table, `prioritized_pkgs` and the trucks; here the single
source of truth is the table (`store`, an insertion-ordered association list
keyed by package id), trucks hold package ids, and every read or write of a
package goes through the store.  Times are seconds since midnight; the
minute-resolution clock advances by 60 per tick.
-/

/-- Read a package object: `None`-returning lookups make the callers blow up
with an `AttributeError`/`KeyError`/`TypeError` at the next use, modelled as a
single lookup failure. -/
def getPkg (store : List (ℕ × Package)) (pid : ℕ) : Except String Package :=
  match alookup store pid with
  | none => Except.error "lookup failed: missing package id"
  | some p => Except.ok p

/-- A truck as the Scheduler's state sees it: same fields as `Truck`
(truck.py), but carrying the loaded packages as ids into the store. -/
structure STruck where
  tid : ℕ
  capacity : ℕ
  avg_speed : ℚ
  driver : Option ℕ
  packages : List ℕ
  mileage : ℚ
  last_location : ℕ
  route : List ℕ
  distance_to_next : ℚ
deriving DecidableEq, Repr

/-- `Truck.is_at_hub` (truck.py lines 111-114). -/
def STruck.is_at_hub (t : STruck) (hub : ℕ) : Bool :=
  t.last_location = hub ∧ t.route = []

/-- `Truck.is_en_route` (truck.py lines 153-156). -/
def STruck.is_en_route (t : STruck) : Bool :=
  ¬ t.route = []

/-- Replace the truck with the given truck's id (Python mutates the shared
object; truck ids are unique, so replacing the first match is that). -/
def replaceTruck : List STruck → STruck → List STruck
  | [], _ => []
  | t :: rest, t2 => if t.tid = t2.tid then t2 :: rest else t :: replaceTruck rest t2

/-- First truck with the given id. -/
def getTruck (trucks : List STruck) (tid : ℕ) : Except String STruck :=
  match trucks.find? (fun t => t.tid == tid) with
  | none => Except.error "lookup failed: missing truck"
  | some t => Except.ok t

/-- `list.remove(x)` on ids: drop the first occurrence (the call sites below
all guarantee presence, so the source's ValueError is unreachable). -/
def removeFirstNat : List ℕ → ℕ → List ℕ
  | [], _ => []
  | q :: rest, x => if q = x then rest else q :: removeFirstNat rest x

/-- `Truck.load` (truck.py lines 30-34) acting through the store: silent no-op
at capacity, otherwise append the id and run the EN ROUTE status update (which
raises on an INVALID package). -/
def STruck.load (t : STruck) (store : List (ℕ × Package)) (pid : ℕ) :
    Except String (List (ℕ × Package) × STruck) :=
  if t.packages.length ≥ t.capacity then Except.ok (store, t)
  else
    match getPkg store pid with
    | Except.error e => Except.error e
    | Except.ok p =>
      match p.update_status (PStatus.enRoute t.tid) with
      | Except.error e => Except.error e
      | Except.ok q =>
        Except.ok (ainsert store pid q, { t with packages := t.packages ++ [pid] })

/-- `Truck.add_to_route` (truck.py lines 96-100).  When the truck is at the hub
with an empty route the distance to the new stop is looked up; the source
would store a `None` for a missing distance and fail on the next `drive`,
modelled as an immediate error. -/
def STruck.add_to_route (t : STruck) (g : ℕ → ℕ → Option ℚ) (hub : ℕ) (dest : ℕ) :
    Except String STruck :=
  if t.route = [] ∧ t.is_at_hub hub then
    match g t.last_location dest with
    | none => Except.error "TypeError: unlinked locations"
    | some d =>
      Except.ok { t with distance_to_next := d, route := t.route ++ [dest] }
  else Except.ok { t with route := t.route ++ [dest] }

/-- Status resets of `Truck.reset_packages` (truck.py lines 106-109): every
loaded package goes back to IN HUB (an update that never raises) and the list
empties. -/
def resetPackagesGo : List (ℕ × Package) → List ℕ → Except String (List (ℕ × Package))
  | store, [] => Except.ok store
  | store, pid :: rest =>
    match getPkg store pid with
    | Except.error e => Except.error e
    | Except.ok p =>
      match p.update_status PStatus.inHub with
      | Except.error e => Except.error e
      | Except.ok q => resetPackagesGo (ainsert store pid q) rest

/-- `Truck.reset_packages`. -/
def STruck.reset_packages (t : STruck) (store : List (ℕ × Package)) :
    Except String (List (ℕ × Package) × STruck) :=
  match resetPackagesGo store t.packages with
  | Except.error e => Except.error e
  | Except.ok store2 => Except.ok (store2, { t with packages := [] })

/-- `Truck.reset_route` (truck.py lines 102-104): clear the queue and reset the
last location to the hub (`Interface.get_hub()`). -/
def STruck.reset_route (t : STruck) (hub : ℕ) : STruck :=
  { t with route := [], last_location := hub }

/-- `Truck.reset_driver` (truck.py lines 93-94). -/
def STruck.reset_driver (t : STruck) : STruck :=
  { t with driver := none }

/-- `Truck.drive` (truck.py lines 36-60) on a scheduler truck; identical to
`Truck.drive` above, including the always-zero `extra_distance`. -/
def STruck.drive (t : STruck) (g : ℕ → ℕ → Option ℚ) : Except String (STruck × Bool) :=
  match t.route with
  | [] => Except.ok (t, false)
  | next :: rest =>
    let travel_distance := t.avg_speed / 60
    if t.distance_to_next < travel_distance then
      let travel_distance2 := t.distance_to_next
      let extra_distance := travel_distance2 - t.distance_to_next
      match rest with
      | [] =>
        Except.ok ({ t with last_location := next, route := [], distance_to_next := 0 }, true)
      | next2 :: rest2 =>
        match g next next2 with
        | none => Except.error "TypeError: unlinked locations"
        | some d =>
          let t2 : STruck := { t with last_location := next, route := next2 :: rest2, distance_to_next := d - extra_distance }
          Except.ok (t2, true)
    else
      let t3 : STruck := { t with mileage := t.mileage + travel_distance, distance_to_next := t.distance_to_next - travel_distance }
      Except.ok (t3, false)

/-- Iterator core of `Truck.attempt_delivery` (truck.py lines 62-76) through
the store, with the same index-advancing iterator over the shrinking id list
(the element sliding into a removed slot is skipped). -/
def sAttemptGo (loc : ℕ) (tmin : ℕ) : ℕ → List (ℕ × Package) → List ℕ → ℕ → Bool →
    Except String (List (ℕ × Package) × List ℕ × Bool)
  | 0, store, pkgs, _, flag => Except.ok (store, pkgs, flag)
  | fuel + 1, store, pkgs, i, flag =>
    if h : i < pkgs.length then
      let pid := pkgs.get ⟨i, h⟩
      match getPkg store pid with
      | Except.error e => Except.error e
      | Except.ok p =>
        if p.destination = loc then
          match p.update_status (PStatus.delivered tmin) with
          | Except.error e => Except.error e
          | Except.ok q =>
            sAttemptGo loc tmin fuel (ainsert store pid q) (removeFirstNat pkgs pid) (i + 1) true
        else
          sAttemptGo loc tmin fuel store pkgs (i + 1) flag
    else Except.ok (store, pkgs, flag)

/-- `Truck.attempt_delivery` on a scheduler truck. -/
def STruck.attempt_delivery (t : STruck) (store : List (ℕ × Package)) (loc : ℕ)
    (tmin : ℕ) : Except String (List (ℕ × Package) × STruck × Bool) :=
  match sAttemptGo loc tmin t.packages.length store t.packages 0 false with
  | Except.error e => Except.error e
  | Except.ok (store2, remaining, flag) =>
    Except.ok (store2, { t with packages := remaining }, flag)

/-- `"DELAY" in package.get_status()`: of the statuses the program produces,
only "DELAYED UNTIL ..." contains that substring. -/
def PStatus.isDelayedStatus : PStatus → Bool
  | PStatus.delayedUntil _ => true
  | _ => false

/-- `get_status().split(" ")[0].strip() in ["DELIVERED", "ATTEMPTED"]`: the
first word of the status string is DELIVERED exactly for "DELIVERED at ..."
and ATTEMPTED exactly for "ATTEMPTED". -/
def PStatus.isDeliveredOrAttempted : PStatus → Bool
  | PStatus.delivered _ => true
  | PStatus.attempted => true
  | _ => false

/-- Modelled from the spec: `HashTable.all_values` (called throughout
scheduler.py but absent from src/hash_table.py) yields every stored package;
tick only consumes the collection through order-insensitive aggregates. -/
def allValues (store : List (ℕ × Package)) : List Package :=
  store.map Prod.snd

/-- The `all_packages_delivered` aggregate of `Scheduler.tick` (scheduler.py
lines 182-185). -/
def allPackagesDelivered (store : List (ℕ × Package)) : Bool :=
  (allValues store).all (fun p => p.status.isDeliveredOrAttempted)

/-- Inner code loop of the delayed-status refresh (scheduler.py lines 170-177
and 363-370): every DELAY code is processed in order (no break here, unlike
`initialize`), resolving to IN HUB once the clock reaches the delay time and
otherwise re-stamping DELAYED UNTIL with the code's time at minute resolution
(the "%I:%M %p" format). -/
def delayedCodesGo (cur : ℕ) : List SCode → Package → Except String Package
  | [], p => Except.ok p
  | SCode.delayC t :: rest, p =>
    let upd := if cur ≥ t then p.update_status PStatus.inHub
               else p.update_status (PStatus.delayedUntil (t / 60))
    match upd with
    | Except.error e => Except.error e
    | Except.ok q => delayedCodesGo cur rest q
  | _ :: rest, p => delayedCodesGo cur rest p

/-- One package of the delayed-status refresh (scheduler.py lines 169-177):
only packages that both carry a DELAY code and currently show a DELAY status
are touched. -/
def delayedUpdateOne (cur : ℕ) (p : Package) : Except String Package :=
  if p.special_code.any SCode.isDelay ∧ p.status.isDelayedStatus then
    delayedCodesGo cur p.special_code p
  else Except.ok p

/-- The delayed-status refresh over `prioritized_pkgs` (scheduler.py lines
168-177, repeated verbatim at 361-370). -/
def delayedUpdateGo (cur : ℕ) : List (ℕ × ℤ) → List (ℕ × Package) →
    Except String (List (ℕ × Package))
  | [], store => Except.ok store
  | (pid, _) :: rest, store =>
    match getPkg store pid with
    | Except.error e => Except.error e
    | Except.ok p =>
      match delayedUpdateOne cur p with
      | Except.error e => Except.error e
      | Except.ok q => delayedUpdateGo cur rest (ainsert store pid q)

/-- Modelled from the spec: `Package.get_delayed_time` (called at scheduler.py
line 241 but absent from src/package.py) returns the arrival time parsed from
the package's DELAY[...] special code. -/
def getDelayedTime (p : Package) : Except String ℕ :=
  match p.special_code.filterMap
      (fun c => match c with | SCode.delayC t => some t | _ => none) with
  | [] => Except.error "package has no DELAY code"
  | t :: _ => Except.ok t

/-- `[package for package in all_values() if "DELAY" in package.get_status()]`
(scheduler.py lines 238-239). -/
def delayedPackages (store : List (ℕ × Package)) : List Package :=
  (allValues store).filter (fun p => p.status.isDelayedStatus)

/-- `sorted(times)[0]`: the minimum, an IndexError on an empty list. -/
def minTime : List ℕ → Except String ℕ
  | [] => Except.error "IndexError: empty time list"
  | t :: rest =>
    match minTime rest with
    | Except.error _ => Except.ok t
    | Except.ok m => Except.ok (min t m)

/-- The truck motion pass of `Scheduler.tick` (scheduler.py lines 191-202):
each en-route truck drives one minute; on arrival it attempts delivery at the
reached location, and a truck back at the hub with an exhausted queue is fully
reset (route, driver, loaded packages back to IN HUB). -/
def drivePassGo (g : ℕ → ℕ → Option ℚ) (hub : ℕ) (tmin : ℕ) :
    List STruck → List (ℕ × Package) → List STruck →
    Except String (List (ℕ × Package) × List STruck)
  | [], store, acc => Except.ok (store, acc)
  | t :: rest, store, acc =>
    if t.is_en_route then
      match t.drive g with
      | Except.error e => Except.error e
      | Except.ok (t2, reached) =>
        if reached then
          match t2.attempt_delivery store t2.last_location tmin with
          | Except.error e => Except.error e
          | Except.ok (store2, t3, _) =>
            if t3.last_location = hub ∧ t3.route = [] then
              match (t3.reset_route hub).reset_driver.reset_packages store2 with
              | Except.error e => Except.error e
              | Except.ok (store3, t4) => drivePassGo g hub tmin rest store3 (acc ++ [t4])
            else drivePassGo g hub tmin rest store2 (acc ++ [t3])
        else drivePassGo g hub tmin rest store (acc ++ [t2])
    else drivePassGo g hub tmin rest store (acc ++ [t])

/-- `truck_scores = {truck.get_id(): 0 for truck in cls.trucks}` (line 206). -/
def truckScoresInit (trucks : List STruck) : List (ℕ × ℕ) :=
  trucks.map (fun t => (t.tid, 0))

/-- `truck_scores[truck_id] += 1`: a KeyError when a TRUCK code names an id no
truck has. -/
def bumpScore (d : List (ℕ × ℕ)) (tid : ℕ) : Except String (List (ℕ × ℕ)) :=
  match alookup d tid with
  | none => Except.error "KeyError: truck_scores"
  | some n => Except.ok (ainsert d tid (n + 1))

/-- Innermost id loop of the truck scoring (scheduler.py lines 213-215): the
IN HUB check is re-evaluated for each listed id. -/
def scoreIdsGo (p : Package) (d : List (ℕ × ℕ)) : List ℕ → Except String (List (ℕ × ℕ))
  | [] => Except.ok d
  | tid :: rest =>
    if p.status = PStatus.inHub then
      match bumpScore d tid with
      | Except.error e => Except.error e
      | Except.ok d2 => scoreIdsGo p d2 rest
    else scoreIdsGo p d rest

/-- Code loop of the truck scoring (scheduler.py lines 209-215). -/
def scoreCodesGo (p : Package) : List SCode → List (ℕ × ℕ) → Except String (List (ℕ × ℕ))
  | [], d => Except.ok d
  | SCode.truckC ids :: rest, d =>
    match scoreIdsGo p d ids with
    | Except.error e => Except.error e
    | Except.ok d2 => scoreCodesGo p rest d2
  | _ :: rest, d => scoreCodesGo p rest d

/-- The truck scoring pass over all packages (scheduler.py lines 206-215). -/
def truckScoresGo : List Package → List (ℕ × ℕ) → Except String (List (ℕ × ℕ))
  | [], d => Except.ok d
  | p :: rest, d =>
    if p.special_code.any SCode.isTruck then
      match scoreCodesGo p p.special_code d with
      | Except.error e => Except.error e
      | Except.ok d2 => truckScoresGo rest d2
    else truckScoresGo rest d

/-- The final value of `truck_ids_special_code` in
`__check_package_for_loading` (scheduler.py lines 395-400): the loop
overwrites the list at every TRUCK code, so the last TRUCK code wins; no
TRUCK code leaves it empty. -/
def lastTruckIds (p : Package) : List ℕ :=
  ((p.special_code.filterMap
    (fun c => match c with | SCode.truckC ids => some ids | _ => none)).getLast?).getD []

/-- `Scheduler.__check_package_for_loading` (scheduler.py lines 384-424): a
truck named by the package's TRUCK code short-circuits to True before the
route / other-truck / IN HUB / INVALID checks; a truck not named when a TRUCK
code exists is refused; otherwise the package must be headed somewhere on the
route, on no truck, IN HUB, and not INVALID. -/
def checkPackageForLoading (trucks : List STruck) (p : Package) (t : STruck)
    (route : List ℕ) : Bool :=
  let truck_ids := lastTruckIds p
  if ¬ (t.tid ∈ truck_ids ∨ truck_ids = []) then false
  else if t.tid ∈ truck_ids then true
  else if ¬ p.destination ∈ route then false
  else if trucks.any (fun t2 => t2.packages.any (fun pid => pid == p.package_id)) then false
  else if ¬ p.status = PStatus.inHub then false
  else if p.hasInvalid then false
  else true

/-- Innermost id loop of the batched-set construction (scheduler.py lines
270-273): each listed package is looked up (a missing id would crash the
status read) and collected when IN HUB; `set.add` ignores repeats. -/
def batchIdsGo (store : List (ℕ × Package)) : List ℕ → List ℕ → Except String (List ℕ)
  | [], acc => Except.ok acc
  | pid :: rest, acc =>
    match getPkg store pid with
    | Except.error e => Except.error e
    | Except.ok p =>
      if p.status = PStatus.inHub then
        batchIdsGo store rest (if pid ∈ acc then acc else acc ++ [pid])
      else batchIdsGo store rest acc

/-- Code loop of the batched-set construction (scheduler.py lines 266-273). -/
def batchCodesGo (store : List (ℕ × Package)) : List SCode → List ℕ → Except String (List ℕ)
  | [], acc => Except.ok acc
  | SCode.batchC ids :: rest, acc =>
    match batchIdsGo store ids acc with
    | Except.error e => Except.error e
    | Except.ok acc2 => batchCodesGo store rest acc2
  | _ :: rest, acc => batchCodesGo store rest acc

/-- `batched_packages_to_deliver` (scheduler.py lines 264-273), as the set of
collected package ids (the set is only ever membership-tested). -/
def batchedGo (store : List (ℕ × Package)) : List (ℕ × ℤ) → List ℕ → Except String (List ℕ)
  | [], acc => Except.ok acc
  | (pid, _) :: rest, acc =>
    match getPkg store pid with
    | Except.error e => Except.error e
    | Except.ok p =>
      match batchCodesGo store p.special_code acc with
      | Except.error e => Except.error e
      | Except.ok acc2 => batchedGo store rest acc2

/-- Score of one route (scheduler.py lines 254-259): the priorities of the
IN HUB packages whose destination lies on the route. -/
def routeScore (store : List (ℕ × Package)) : List (ℕ × ℤ) → List ℕ → ℤ →
    Except String ℤ
  | [], _, acc => Except.ok acc
  | (pid, pr) :: rest, route, acc =>
    match getPkg store pid with
    | Except.error e => Except.error e
    | Except.ok p =>
      if p.status = PStatus.inHub ∧ p.destination ∈ route then
        routeScore store rest route (acc + pr)
      else routeScore store rest route acc

/-- Route scores for every route in order (scheduler.py lines 253-259). -/
def routeScoresGo (store : List (ℕ × Package)) (prioritized : List (ℕ × ℤ)) :
    List (List ℕ) → Except String (List ℤ)
  | [] => Except.ok []
  | route :: rest =>
    match routeScore store prioritized route 0 with
    | Except.error e => Except.error e
    | Except.ok s =>
      match routeScoresGo store prioritized rest with
      | Except.error e => Except.error e
      | Except.ok ss => Except.ok (s :: ss)

/-- `sorted(zip(routes, scores), key=x[1], reverse=True)[0]` (lines 260-261):
the stable descending sort puts first the earliest route attaining the
maximum score; the subscript is an IndexError when there are no routes. -/
def selectMaxRoute : List (List ℕ) → List ℤ → Option (List ℕ × ℤ) →
    Except String (List ℕ)
  | [], _, none => Except.error "IndexError: no routes"
  | [], _, some (r, _) => Except.ok r
  | _, [], none => Except.error "IndexError: no routes"
  | _, [], some (r, _) => Except.ok r
  | r :: rs, s :: ss, best =>
    match best with
    | none => selectMaxRoute rs ss (some (r, s))
    | some (r0, s0) =>
      if s > s0 then selectMaxRoute rs ss (some (r, s))
      else selectMaxRoute rs ss (some (r0, s0))

/-- First-occurrence deduplication: the membership content of
`list(set(...))` (only membership of the result is ever consumed, so the
interpreter-defined set order is immaterial). -/
def dedupKeep : List ℕ → List ℕ → List ℕ
  | [], acc => acc
  | x :: rest, acc => dedupKeep rest (if x ∈ acc then acc else acc ++ [x])

/-- `all_locations = list(set(location for route in route_list for location
in route))` (scheduler.py lines 282, 308, 499). -/
def allLocationsOf (route_list : List (List ℕ)) : List ℕ :=
  dedupKeep route_list.join []

/-- `max(trucks_at_hub_scores, key=trucks_at_hub_scores.get)` (line 228): the
first key attaining the maximal value, a ValueError on an empty dict. -/
def maxKeyByVal : List (ℕ × ℕ) → Option (ℕ × ℕ) → Except String ℕ
  | [], none => Except.error "ValueError: max() arg is an empty sequence"
  | [], some (k, _) => Except.ok k
  | (k, v) :: rest, none => maxKeyByVal rest (some (k, v))
  | (k, v) :: rest, some (k0, v0) =>
    if v > v0 then maxKeyByVal rest (some (k, v))
    else maxKeyByVal rest (some (k0, v0))

/-- Load through the chosen truck, writing the updated truck back into the
truck list (the Python object in `cls.trucks` is mutated in place). -/
def loadOnto (store : List (ℕ × Package)) (trucks : List STruck) (tid : ℕ)
    (pid : ℕ) : Except String (List (ℕ × Package) × List STruck) :=
  match getTruck trucks tid with
  | Except.error e => Except.error e
  | Except.ok t =>
    match t.load store pid with
    | Except.error e => Except.error e
    | Except.ok (store2, t2) => Except.ok (store2, replaceTruck trucks t2)

/-- Innermost mate loop of the batch loading pass (scheduler.py lines
291-295): each batched mate is looked up and loaded when the check passes;
the check always sees the truck's current load. -/
def mateIdsGo (allLocs : List ℕ) (tid : ℕ) : List ℕ → List (ℕ × Package) →
    List STruck → Except String (List (ℕ × Package) × List STruck)
  | [], st, tr => Except.ok (st, tr)
  | pid :: rest, st, tr =>
    match getPkg st pid with
    | Except.error e => Except.error e
    | Except.ok p =>
      match getTruck tr tid with
      | Except.error e => Except.error e
      | Except.ok t =>
        if checkPackageForLoading tr p t allLocs then
          match loadOnto st tr tid pid with
          | Except.error e => Except.error e
          | Except.ok (st2, tr2) => mateIdsGo allLocs tid rest st2 tr2
        else mateIdsGo allLocs tid rest st tr

/-- Code loop of the batch loading pass (scheduler.py lines 287-295). -/
def mateCodesGo (allLocs : List ℕ) (tid : ℕ) : List SCode → List (ℕ × Package) →
    List STruck → Except String (List (ℕ × Package) × List STruck)
  | [], st, tr => Except.ok (st, tr)
  | SCode.batchC ids :: rest, st, tr =>
    match mateIdsGo allLocs tid ids st tr with
    | Except.error e => Except.error e
    | Except.ok (st2, tr2) => mateCodesGo allLocs tid rest st2 tr2
  | _ :: rest, st, tr => mateCodesGo allLocs tid rest st tr

/-- The batch loading pass (scheduler.py lines 276-295): walk the prioritized
list, stop at capacity, and for each batched package load it (check permitting)
followed by every mate its BATCH codes name. -/
def passBatchGo (allLocs : List ℕ) (batched : List ℕ) (tid : ℕ) :
    List (ℕ × ℤ) → List (ℕ × Package) → List STruck →
    Except String (List (ℕ × Package) × List STruck)
  | [], st, tr => Except.ok (st, tr)
  | (pid, _) :: rest, st, tr =>
    match getTruck tr tid with
    | Except.error e => Except.error e
    | Except.ok t =>
      if t.packages.length ≥ t.capacity then Except.ok (st, tr)
      else if pid ∈ batched then
        match getPkg st pid with
        | Except.error e => Except.error e
        | Except.ok p =>
          match (if checkPackageForLoading tr p t allLocs
                 then loadOnto st tr tid pid else Except.ok (st, tr)) with
          | Except.error e => Except.error e
          | Except.ok (st2, tr2) =>
            match mateCodesGo allLocs tid p.special_code st2 tr2 with
            | Except.error e => Except.error e
            | Except.ok (st3, tr3) => passBatchGo allLocs batched tid rest st3 tr3
      else passBatchGo allLocs batched tid rest st tr

/-- The deadline loading pass (scheduler.py lines 298-311): skip batched
packages, stop at capacity, and load any package with a non-EOD deadline that
the check admits against the union of all route locations. -/
def passDeadlineGo (allLocs : List ℕ) (batched : List ℕ) (tid : ℕ) :
    List (ℕ × ℤ) → List (ℕ × Package) → List STruck →
    Except String (List (ℕ × Package) × List STruck)
  | [], st, tr => Except.ok (st, tr)
  | (pid, _) :: rest, st, tr =>
    if pid ∈ batched then passDeadlineGo allLocs batched tid rest st tr
    else
      match getTruck tr tid with
      | Except.error e => Except.error e
      | Except.ok t =>
        if t.packages.length ≥ t.capacity then Except.ok (st, tr)
        else
          match getPkg st pid with
          | Except.error e => Except.error e
          | Except.ok p =>
            if ¬ p.deadline = 86399 then
              match (if checkPackageForLoading tr p t allLocs
                     then loadOnto st tr tid pid else Except.ok (st, tr)) with
              | Except.error e => Except.error e
              | Except.ok (st2, tr2) => passDeadlineGo allLocs batched tid rest st2 tr2
            else passDeadlineGo allLocs batched tid rest st tr

/-- The route loading pass (scheduler.py lines 314-325): skip batched
packages, stop at capacity, and load what the check admits against the chosen
highest-score route. -/
def passRouteGo (hsr : List ℕ) (batched : List ℕ) (tid : ℕ) :
    List (ℕ × ℤ) → List (ℕ × Package) → List STruck →
    Except String (List (ℕ × Package) × List STruck)
  | [], st, tr => Except.ok (st, tr)
  | (pid, _) :: rest, st, tr =>
    if pid ∈ batched then passRouteGo hsr batched tid rest st tr
    else
      match getTruck tr tid with
      | Except.error e => Except.error e
      | Except.ok t =>
        if t.packages.length ≥ t.capacity then Except.ok (st, tr)
        else
          match getPkg st pid with
          | Except.error e => Except.error e
          | Except.ok p =>
            match (if checkPackageForLoading tr p t hsr
                   then loadOnto st tr tid pid else Except.ok (st, tr)) with
            | Except.error e => Except.error e
            | Except.ok (st2, tr2) => passRouteGo hsr batched tid rest st2 tr2

/-- The spare-capacity top-off pass (scheduler.py lines 330-336): stop at
capacity, and load every package that is not already on this truck and is
IN HUB, skipping only INVALID ones — the TRUCK-code check function is not
consulted here. -/
def passTopOffGo (tid : ℕ) : List (ℕ × ℤ) → List (ℕ × Package) → List STruck →
    Except String (List (ℕ × Package) × List STruck)
  | [], st, tr => Except.ok (st, tr)
  | (pid, _) :: rest, st, tr =>
    match getTruck tr tid with
    | Except.error e => Except.error e
    | Except.ok t =>
      if t.packages.length ≥ t.capacity then Except.ok (st, tr)
      else
        match getPkg st pid with
        | Except.error e => Except.error e
        | Except.ok p =>
          if ¬ pid ∈ t.packages ∧ p.status = PStatus.inHub then
            if p.hasInvalid then passTopOffGo tid rest st tr
            else
              match loadOnto st tr tid pid with
              | Except.error e => Except.error e
              | Except.ok (st2, tr2) => passTopOffGo tid rest st2 tr2
          else passTopOffGo tid rest st tr

/-- `RouteList.get_route_distance` (route_list.py lines 331-341): running sum
of `location.distance_from(prev_location)`; a missing distance is the `None`
that blows up the addition. -/
def getRouteDistanceGo (g : ℕ → ℕ → Option ℚ) : ℕ → List ℕ → ℚ → Except String ℚ
  | _, [], acc => Except.ok acc
  | prev, x :: rest, acc =>
    match g x prev with
    | none => Except.error "TypeError: unlinked locations"
    | some d => getRouteDistanceGo g x rest (acc + d)

/-- `RouteList.get_route_distance`. -/
def getRouteDistance (g : ℕ → ℕ → Option ℚ) : List ℕ → Except String ℚ
  | [] => Except.ok 0
  | a :: rest => getRouteDistanceGo g a rest 0

/-- The insertion-position scan of `__optimize_route` (scheduler.py lines
453-461): try each slot `i` in `range(1, len(route_copy))`, keeping the first
strictly best total distance (`best_index` stays 0 when the scan is empty). -/
def bestInsertGo (g : ℕ → ℕ → Option ℚ) (rc : List ℕ) (loc : ℕ) :
    List ℕ → ℕ × Option ℚ → Except String (ℕ × Option ℚ)
  | [], best => Except.ok best
  | i :: is2, (bi, bd) =>
    match getRouteDistance g (insIdx rc i loc) with
    | Except.error e => Except.error e
    | Except.ok d =>
      if ltInf d bd then bestInsertGo g rc loc is2 (i, some d)
      else bestInsertGo g rc loc is2 (bi, bd)

/-- Insertion of the package locations missing from the route (scheduler.py
lines 450-462). -/
def insertMissingGo (g : ℕ → ℕ → Option ℚ) : List ℕ → List ℕ → Except String (List ℕ)
  | [], rc => Except.ok rc
  | loc :: rest, rc =>
    if loc ∈ rc then insertMissingGo g rest rc
    else
      match bestInsertGo g rc loc (List.range' 1 (rc.length - 1)) (0, none) with
      | Except.error e => Except.error e
      | Except.ok (bi, _) => insertMissingGo g rest (insIdx rc bi loc)

/-- Removal of the stops no package needs (scheduler.py lines 465-467): walk a
copy, removing each unneeded non-hub stop from the live list. -/
def removalPassGo (hub : ℕ) (pkgLocs : List ℕ) : List ℕ → List ℕ → List ℕ
  | [], live => live
  | loc :: rest, live =>
    removalPassGo hub pkgLocs rest
      (if ¬ loc ∈ pkgLocs ∧ ¬ loc = hub then removeFirstNat live loc else live)

/-- `location_priorities.get(route_copy[i], 0)` (lines 475, 478): absent keys
default to 0, but a key that `package_priorities.get` filled with `None`
poisons the arithmetic. -/
def locPriGet (lp : List (ℕ × Option ℤ)) (loc : ℕ) : Except String ℤ :=
  match alookup lp loc with
  | none => Except.ok 0
  | some none => Except.error "TypeError: NoneType priority"
  | some (some z) => Except.ok z

/-- One reversal-score accumulation (scheduler.py lines 473-478): sum of
`priority(route_copy[i]) * (len(route_copy) - i)` over the given indices. -/
def revScoreGo (lp : List (ℕ × Option ℤ)) (rc : List ℕ) (n : ℕ) :
    List ℕ → ℤ → Except String ℤ
  | [], acc => Except.ok acc
  | i :: rest, acc =>
    match locPriGet lp (rc.getD i 0) with
    | Except.error e => Except.error e
    | Except.ok z => revScoreGo lp rc n rest (acc + z * ((n : ℤ) - i))

/-- `location_priorities` (scheduler.py lines 444-447): per-package priorities
restricted to the loaded packages, re-keyed by destination (later packages
overwrite; a package missing from `prioritized_pkgs` stores `None`). -/
def locationPrioritiesGo (store : List (ℕ × Package)) (ppri : List (ℕ × ℤ)) :
    List ℕ → List (ℕ × Option ℤ) → Except String (List (ℕ × Option ℤ))
  | [], lp => Except.ok lp
  | pid :: rest, lp =>
    match getPkg store pid with
    | Except.error e => Except.error e
    | Except.ok p =>
      locationPrioritiesGo store ppri rest (ainsert lp p.destination (alookup ppri pid))

/-- The within-the-hour deadline hoist (scheduler.py lines 493-497): such a
package's stop is moved to position 1 of the route. -/
def deadlineHoistGo (store : List (ℕ × Package)) (cur : ℕ) :
    List ℕ → List ℕ → Except String (List ℕ)
  | [], rc => Except.ok rc
  | pid :: rest, rc =>
    match getPkg store pid with
    | Except.error e => Except.error e
    | Except.ok p =>
      deadlineHoistGo store cur rest
        (if (p.deadline : ℤ) - (cur : ℤ) < 3600 ∧ p.destination ∈ rc
         then insIdx (removeFirstNat rc p.destination) 1 p.destination else rc)

/-- `while reversed_new_route.count(location) > 1: remove(location)`
(scheduler.py lines 506-507); the count strictly drops each step, so the list
length bounds the iterations. -/
def removeDupWhile (x : ℕ) : ℕ → List ℕ → List ℕ
  | 0, l => l
  | fuel + 1, l =>
    if l.count x > 1 then removeDupWhile x fuel (removeFirstNat l x) else l

/-- The duplicate-stop cleanup (scheduler.py lines 504-508): walk a copy of
the reversed route, collapsing each stop's occurrences down to one (keeping
the first of the reversed list, i.e. the last visit of the original). -/
def dedupPassGo : List ℕ → List ℕ → List ℕ
  | [], live => live
  | loc :: rest, live => dedupPassGo rest (removeDupWhile loc live.length live)

/-- Pair loop of `Scheduler.dijkstra_route` (scheduler.py lines 529-536):
replace each consecutive pair by the dijkstra path (sans final stop) when that
path differs from the pair and has interior stops, else keep the first stop. -/
def dijkstraRouteGo (G : LGraph) : List (ℕ × ℕ) → List ℕ → Except String (List ℕ)
  | [], acc => Except.ok acc
  | (loc, nxt) :: rest, acc =>
    match Scheduler.dijkstra G loc nxt with
    | Except.error e => Except.error e
    | Except.ok optimal =>
      if ¬ optimal = [loc, nxt] ∧ ¬ ((optimal.drop 1).dropLast = []) then
        dijkstraRouteGo G rest (acc ++ optimal.dropLast)
      else dijkstraRouteGo G rest (acc ++ [loc])

/-- `Scheduler.dijkstra_route` (scheduler.py lines 518-538); `route[-1]` is an
IndexError on an empty route. -/
def Scheduler.dijkstra_route (G : LGraph) (route : List ℕ) : Except String (List ℕ) :=
  match dijkstraRouteGo G (route.zip (route.drop 1)) [] with
  | Except.error e => Except.error e
  | Except.ok nr =>
    match route.getLast? with
    | none => Except.error "IndexError: empty route"
    | some last => Except.ok (nr ++ [last])

/-- `[package.get_destination() for package in packages_to_deliver]` (line
443). -/
def pkgLocsGo (store : List (ℕ × Package)) : List ℕ → Except String (List ℕ)
  | [] => Except.ok []
  | pid :: rest =>
    match getPkg store pid with
    | Except.error e => Except.error e
    | Except.ok p =>
      match pkgLocsGo store rest with
      | Except.error e => Except.error e
      | Except.ok ls => Except.ok (p.destination :: ls)

/-- `Scheduler.__optimize_route` (scheduler.py lines 426-516): insert missing
package stops at the cheapest slot, drop unneeded stops, possibly reverse by
priority weighting, hoist within-the-hour deadlines, route through dijkstra,
collapse duplicate stops (keeping the last visit), close at the hub, and
route through dijkstra once more. -/
def Scheduler.optimize_route (G0 : LGraph) (hub : ℕ) (route_list : List (List ℕ))
    (prioritized : List (ℕ × ℤ)) (store : List (ℕ × Package)) (cur : ℕ)
    (pkg_ids : List ℕ) (route_to_optimize : List ℕ) : Except String (List ℕ) := do
  let g := edgeW G0
  let pkgLocs ← pkgLocsGo store pkg_ids
  let ppri := prioritized.filter (fun x => x.1 ∈ pkg_ids)
  let lp ← locationPrioritiesGo store ppri pkg_ids []
  let rc1 ← insertMissingGo g pkgLocs route_to_optimize
  let rc2 := removalPassGo hub pkgLocs rc1 rc1
  let n := rc2.length
  let rc3 ←
    if n > 2 then do
      let dont ← revScoreGo lp rc2 n (List.range' 1 (n - 2)) 0
      let rev ← revScoreGo lp rc2 n ((List.range' 2 (n - 3)).reverse) 0
      pure (if rev > dont then rc2.reverse else rc2)
    else pure rc2
  let rc4 ← deadlineHoistGo store cur pkg_ids rc3
  let aL := allLocationsOf route_list
  let G2 : LGraph := { locs := aL, nbrs := G0.nbrs, nm := G0.nm }
  let nr ← Scheduler.dijkstra_route G2 rc4
  let nr2 := (dedupPassGo nr.reverse nr.reverse).reverse
  Scheduler.dijkstra_route G2 (nr2 ++ [hub])

/-- `[package.get_delayed_time() for package in delayed_packages]` (line
241). -/
def delayedTimesGo : List Package → Except String (List ℕ)
  | [] => Except.ok []
  | p :: rest =>
    match getDelayedTime p with
    | Except.error e => Except.error e
    | Except.ok t =>
      match delayedTimesGo rest with
      | Except.error e => Except.error e
      | Except.ok ts => Except.ok (t :: ts)

/-- The route-assignment loop after optimization (scheduler.py lines 340-343):
each optimized stop is appended to the truck's route, except a leading hub. -/
def addRouteGo (g : ℕ → ℕ → Option ℚ) (hub : ℕ) (tid : ℕ) :
    List ℕ → List STruck → Except String (List STruck)
  | [], tr => Except.ok tr
  | loc :: rest, tr => do
    let t ← getTruck tr tid
    if t.route = [] ∧ loc = hub then addRouteGo g hub tid rest tr
    else do
      let t2 ← t.add_to_route g hub loc
      addRouteGo g hub tid rest (replaceTruck tr t2)

/-- The load-and-deploy loop of `Scheduler.tick` (scheduler.py lines 224-358),
one recursive step per `while trucks_at_hub and drivers_at_hub` iteration;
each iteration removes the chosen truck and driver, so the initial
trucks-at-hub count bounds the fuel. -/
def dispatchGo (G : LGraph) (hub : ℕ) (route_list : List (List ℕ))
    (prioritized : List (ℕ × ℤ)) (scores : List (ℕ × ℕ)) (cur : ℕ) :
    ℕ → List ℕ → List ℕ → List (ℕ × Package) → List STruck →
    Except String (List (ℕ × Package) × List STruck)
  | 0, _, _, _, _ => Except.error "fuel exhausted"
  | fuel + 1, tah, dah, st, tr =>
    if tah = [] ∨ dah = [] then Except.ok (st, tr)
    else do
      let hstid ← maxKeyByVal (scores.filter (fun kv => kv.1 ∈ tah)) none
      let t ←
        match (tr.filter (fun t => t.tid = hstid ∧ t.is_at_hub hub)).head? with
        | none => Except.error "IndexError: no matching truck at hub"
        | some t => Except.ok t
      let d ←
        match (dah.filter (fun dr => ¬ tr.any (fun t2 => t2.driver == some dr))).head? with
        | none => Except.error "IndexError: no available driver"
        | some d => Except.ok d
      let tr ← pure (replaceTruck tr { t with driver := some d })
      let delayed := delayedPackages st
      let waited ←
        match delayed with
        | [] => Except.ok none
        | _ => do
          let times ← delayedTimesGo delayed
          let t0 ← minTime times
          if (cur : ℤ) ≥ (t0 : ℤ) - 900 then do
            let tw ← getTruck tr hstid
            let (st2, tw3) ← ((tw.reset_route hub).reset_driver).reset_packages st
            Except.ok (some (st2, replaceTruck tr tw3))
          else Except.ok none
      match waited with
      | some r => Except.ok r
      | none => do
        let rscores ← routeScoresGo st prioritized route_list
        let hsr ← selectMaxRoute route_list rscores none
        let batched ← batchedGo st prioritized []
        let aL := allLocationsOf route_list
        let (st, tr) ← passBatchGo aL batched hstid prioritized st tr
        let (st, tr) ← passDeadlineGo aL batched hstid prioritized st tr
        let (st, tr) ← passRouteGo hsr batched hstid prioritized st tr
        let (st, tr) ←
          if delayed = [] then passTopOffGo hstid prioritized st tr
          else pure (st, tr)
        let tl ← getTruck tr hstid
        let opt ← Scheduler.optimize_route G hub route_list prioritized st cur
          tl.packages hsr
        let tr ← addRouteGo (edgeW G) hub hstid opt tr
        dispatchGo G hub route_list prioritized scores cur fuel
          (removeFirstNat tah hstid) (removeFirstNat dah d) st tr

/-- The Scheduler's state: the clock and delivery start (seconds since
midnight), the package table, the priority-sorted package list, the routes,
trucks, drivers, the hub, and the location graph. -/
structure SchedState where
  current_time : ℕ
  delivery_start_time : ℕ
  store : List (ℕ × Package)
  prioritized : List (ℕ × ℤ)
  route_list : List (List ℕ)
  trucks : List STruck
  drivers : List ℕ
  hub : ℕ
  graph : LGraph

/-- Everything `Scheduler.tick` does after the termination check returns
control (scheduler.py lines 191-374): drive the trucks, score them, run the
load-and-deploy loop, refresh delayed statuses, and advance the clock. -/
def tickRest (S : SchedState) : Except String SchedState := do
  let (st, tr) ← drivePassGo (edgeW S.graph) S.hub (S.current_time / 60)
    S.trucks S.store []
  let scores ← truckScoresGo (allValues st) (truckScoresInit tr)
  let tah := (tr.filter (fun t => t.is_at_hub S.hub)).map (fun t => t.tid)
  let dah := S.drivers.filter (fun dr => ¬ tr.any (fun t2 => t2.driver == some dr))
  let (st, tr) ← dispatchGo S.graph S.hub S.route_list S.prioritized scores
    S.current_time (tah.length + 1) tah dah st tr
  let st ← delayedUpdateGo S.current_time S.prioritized st
  Except.ok { S with store := st, trucks := tr, current_time := S.current_time + 60 }

/-- `Scheduler.tick` (scheduler.py lines 131-374): before the delivery start
only delayed statuses are refreshed and the clock advances; at or past it, the
tick returns False immediately (touching nothing) when every package is
DELIVERED/ATTEMPTED, and otherwise runs the day's minute and returns True. -/
def Scheduler.tick (S : SchedState) : Except String (SchedState × Bool) :=
  if S.current_time < S.delivery_start_time then
    match delayedUpdateGo S.current_time S.prioritized S.store with
    | Except.error e => Except.error e
    | Except.ok st2 =>
      Except.ok ({ S with store := st2, current_time := S.current_time + 60 }, true)
  else if allPackagesDelivered S.store then Except.ok (S, false)
  else
    match tickRest S with
    | Except.error e => Except.error e
    | Except.ok S2 => Except.ok (S2, true)

/-- C3: for a state whose clock is at or past the delivery start time, `tick`
returns False exactly when every package's status is DELIVERED or ATTEMPTED
(`all_values` itself is modelled from the spec, the method being absent from
src/hash_table.py), and whenever it returns False the state — clock, package
table, trucks, everything — is returned untouched. -/
theorem C3_tick_termination (S : SchedState)
    (h : ¬ S.current_time < S.delivery_start_time) :
    ((∃ S2, Scheduler.tick S = Except.ok (S2, false)) ↔
      allPackagesDelivered S.store = true)
    ∧ (∀ S2, Scheduler.tick S = Except.ok (S2, false) → S2 = S) := by
  unfold Scheduler.tick
  rw [if_neg h]
  by_cases hall : allPackagesDelivered S.store = true
  · rw [if_pos hall]
    constructor
    · exact ⟨fun _ => hall, fun _ => ⟨S, rfl⟩⟩
    · intro S2 h2
      have h3 : (S, false) = (S2, false) := Except.ok.inj h2
      exact ((Prod.mk.inj h3).1).symm
  · rw [if_neg hall]
    have hnof : ∀ S2, (match tickRest S with
        | Except.error e => Except.error e
        | Except.ok S3 => Except.ok (S3, true)) ≠
          (Except.ok (S2, false) : Except String (SchedState × Bool)) := by
      intro S2 h2
      cases hres : tickRest S with
      | error e =>
        rw [hres] at h2
        exact Except.noConfusion h2
      | ok S3 =>
        rw [hres] at h2
        have h3 : (S3, true) = (S2, false) := Except.ok.inj h2
        exact Bool.noConfusion (Prod.mk.inj h3).2
    constructor
    · constructor
      · rintro ⟨S2, h2⟩
        exact absurd h2 (hnof S2)
      · intro h2
        exact absurd h2 hall
    · intro S2 h2
      exact absurd h2 (hnof S2)

/-- A package already delivered, for the all-delivered state. -/
def C3pkg : Package :=
  { package_id := 1, destination := 1, deadline := 86399, weight := 1, special_code := [], status := PStatus.delivered 540 }

/-- An idle truck at the hub. -/
def C3truck : STruck :=
  { tid := 1, capacity := 16, avg_speed := 18, driver := none, packages := [], mileage := 0, last_location := 0, route := [], distance_to_next := 0 }

/-- One-package, one-truck state with everything delivered, at the delivery
start time. -/
def C3state : SchedState :=
  { current_time := 28800, delivery_start_time := 28800,
    store := [(1, C3pkg)],
    prioritized := [(1, 10)],
    route_list := [[0, 1, 0]],
    trucks := [C3truck],
    drivers := [11], hub := 0, graph := gC4 }

/-- Witness for C3 at the concrete all-delivered state. -/
theorem C3_tick_termination_witness :
    ¬ C3state.current_time < C3state.delivery_start_time ∧
    (((∃ S2, Scheduler.tick C3state = Except.ok (S2, false)) ↔
        allPackagesDelivered C3state.store = true)
      ∧ (∀ S2, Scheduler.tick C3state = Except.ok (S2, false) → S2 = C3state)) :=
  ⟨by decide, C3_tick_termination C3state (by decide)⟩

/-- Package 1: restricted to truck 2 by its TRUCK[2] code, no deadline. -/
def C1pkg1 : Package :=
  { package_id := 1, destination := 1, deadline := 86399, weight := 1,
    special_code := [SCode.truckC [2]], status := PStatus.inHub }

/-- Package 2: unrestricted, with a 10:00 AM deadline. -/
def C1pkg2 : Package :=
  { package_id := 2, destination := 1, deadline := 36000, weight := 1,
    special_code := [], status := PStatus.inHub }

/-- Truck 1: the truck package 1 must NOT ride on, with plenty of room. -/
def C1truck1 : STruck :=
  { tid := 1, capacity := 16, avg_speed := 18, driver := none, packages := [],
    mileage := 0, last_location := 0, route := [], distance_to_next := 0 }

/-- Truck 2: the truck package 1 is restricted to, with room for one. -/
def C1truck2 : STruck :=
  { tid := 2, capacity := 1, avg_speed := 18, driver := none, packages := [],
    mileage := 0, last_location := 0, route := [], distance_to_next := 0 }

/-- Two packages, two trucks, two drivers at the delivery start time. -/
def C1state : SchedState :=
  { current_time := 28800, delivery_start_time := 28800,
    store := [(1, C1pkg1), (2, C1pkg2)],
    prioritized := [(2, 10), (1, 5)],
    route_list := [[0, 1, 0]],
    trucks := [C1truck1, C1truck2],
    drivers := [11, 12], hub := 0, graph := gC4 }

/-- C1 (divergence witness): one full `tick` from `C1state` ends with package 1
— whose TRUCK[2] code names truck 2 only, and which
`__check_package_for_loading` itself would refuse for truck 1 — loaded on
truck 1.  The dispatch loop deploys truck 2 first (its truck score is
highest), whose single slot the deadline pass fills with package 2; the next
iteration deploys truck 1, where the batch, deadline and route passes all
leave package 1 alone (the check refuses it), but the spare-capacity top-off
pass of scheduler.py lines 330-336 loads it without consulting the check. -/
theorem C1_topoff_ignores_truck_codes :
    (Scheduler.tick C1state).map
        (fun r => (r.2, r.1.trucks.map (fun t => (t.tid, t.packages))))
      = Except.ok (true, [(1, [1]), (2, [2])])
    ∧ alookup C1state.store 1 = some C1pkg1
    ∧ lastTruckIds C1pkg1 = [2]
    ∧ ¬ (1 : ℕ) ∈ ([2] : List ℕ)
    ∧ checkPackageForLoading [C1truck1, C1truck2] C1pkg1 C1truck1 [0, 1, 0] = false := by
  refine ⟨?_, rfl, rfl, by decide, rfl⟩
  with_unfolding_all rfl
